import Mathlib

set_option maxRecDepth 100000

/-!
# Verification of the Sumzle solver (`src/wasm/src/lib.rs`)

A shallow embedding of the Sumzle equation-search engine.  Strings are
modelled as `List Char` (all relevant strings are ASCII, so Rust's byte
indices coincide with character indices).  Rust `i32` values are modelled
as `Int` with the explicit bounds `-2147483648 ≤ v ≤ 2147483647` where the
code's `parse::<i32>` / range checks make overflow observable.  Fallible
Rust code returning `Option`/`Result` is modelled with `Option` (the
human-readable conflict messages of `Result<_, String>` are dropped: every
claim only distinguishes "some conflict" from "no conflict").

The external `meval` crate (`meval::eval_str`) is not part of the
repository; it is modelled from the spec (§4.1 step 4) further below.
-/

namespace Sumzle

/-! ## Character classes (lib.rs lines 348-382)

These Rust helpers are methods on `SumzleSolver` but read no field of
`self`; they are modelled as plain functions. -/

-- `fn is_digit(&self, c: char) -> bool { c >= '0' && c <= '9' }`
def is_digit (c : Char) : Bool := decide ('0' ≤ c) && decide (c ≤ '9')

-- `matches!(c, '+' | '-' | '*' | '/' | '%' | '^' | 'A')`
def is_binary_operator (c : Char) : Bool :=
  match c with
  | '+' | '-' | '*' | '/' | '%' | '^' | 'A' => true
  | _ => false

def is_unary_post_operator (c : Char) : Bool := c == '!'

def is_operator (c : Char) : Bool := is_binary_operator c || is_unary_post_operator c

def is_open_bracket (c : Char) : Bool := c == '(' || c == '['

def is_close_bracket (c : Char) : Bool := c == ')' || c == ']'

def is_main_operator (c : Char) : Bool := c == '=' || c == '>'

def get_matching_bracket (open_bracket : Char) : Option Char :=
  match open_bracket with
  | '(' => some ')'
  | '[' => some ']'
  | _ => none

/-! ## `check_brackets` (lib.rs lines 328-345)

The Rust code pushes the *expected* closing bracket on a `Vec` stack and
pops on every closer; the list head models the top of the stack. -/

def checkBracketsAux : List Char → List Char → Bool
  | [], stack => stack.isEmpty
  | c :: rest, stack =>
    if c = '(' then checkBracketsAux rest (')' :: stack)
    else if c = '[' then checkBracketsAux rest (']' :: stack)
    else if c = ')' || c = ']' then
      match stack with
      | top :: stack' => if top = c then checkBracketsAux rest stack' else false
      | [] => false
    else checkBracketsAux rest stack

def check_brackets (s : List Char) : Bool := checkBracketsAux s []

/-! ## `str::parse::<i32>` on extracted substrings

Rust's `i32::from_str` accepts an optional sign followed by one or more
ASCII digits and fails on overflow.  The evaluator applies it to
substrings that may contain arbitrary characters, so the full grammar is
modelled. -/

def digitsVal (ds : List Char) : Nat :=
  ds.foldl (fun a c => a * 10 + (c.toNat - '0'.toNat)) 0

def parseDigits (ds : List Char) : Option Nat :=
  if ds ≠ [] ∧ ds.all Char.isDigit then some (digitsVal ds) else none

def parse_i32 (s : List Char) : Option Int :=
  match s with
  | [] => none
  | c :: ds =>
    if c = '+' then
      (parseDigits ds).bind (fun n => if n ≤ 2147483647 then some (n : Int) else none)
    else if c = '-' then
      (parseDigits ds).bind (fun n => if n ≤ 2147483648 then some (-(n : Int)) else none)
    else (parseDigits (c :: ds)).bind (fun n => if n ≤ 2147483647 then some (n : Int) else none)

-- `i32`'s `Display`, used for the string replacements of the reduction
-- pipeline (`value.to_string()`).
def intToChars (n : Int) : List Char :=
  if n < 0 then '-' :: Nat.toDigits 10 n.natAbs else Nat.toDigits 10 n.natAbs

/-! ## The external arithmetic evaluator (`meval::eval_str`)

Modelled from the spec: the `meval` crate is an external collaborator,
specified in §4.1 step 4 as "standard operator precedence and semantics
for `+ - * / % ^` and parentheses, over real-number arithmetic
internally", accepting only a finite, exactly integral result within the
signed 32-bit range.  Real-number arithmetic is modelled exactly with
unnormalized integer fractions `Frac` (numerator and positive
denominator), which the kernel can evaluate; `meval`'s `f64` computations
can deviate from exact real arithmetic on results that are not
representable in binary (and its `^` is `powf`, which the model only
defines for integer exponents), but every claim below exercises this
model only on integer literals or through the facts that tokenization
rejects characters outside the grammar and that a division by zero never
produces a finite integral result.  A character with no token (anything
outside digits, the six operators and parentheses) makes the whole
evaluation fail, as `meval`'s tokenizer does.  The recursions run on
explicit fuel large enough never to run out on any input (each tokenizer
step consumes at least one character; each parser step consumes fuel
linear in the token count). -/

structure Frac where
  n : Int
  d : Int
deriving DecidableEq, Repr

def fracOfNat (v : Nat) : Frac := ⟨(v : Int), 1⟩

def qAdd (a b : Frac) : Frac := ⟨a.n * b.d + b.n * a.d, a.d * b.d⟩

def qSub (a b : Frac) : Frac := ⟨a.n * b.d - b.n * a.d, a.d * b.d⟩

def qMul (a b : Frac) : Frac := ⟨a.n * b.n, a.d * b.d⟩

def qNeg (a : Frac) : Frac := ⟨-a.n, a.d⟩

-- re-establish a positive denominator
def fracNorm (n d : Int) : Frac := if d < 0 then ⟨-n, -d⟩ else ⟨n, d⟩

def qDiv (a b : Frac) : Option Frac :=
  if b.n = 0 then none else some (fracNorm (a.n * b.d) (a.d * b.n))

-- truncation toward zero, the value of `f64::fract`-style integer part
def fracTrunc (a : Frac) : Int := Int.tdiv a.n a.d

-- `f64 % f64` is the C `fmod`: `a - b * trunc(a / b)`
def qRem (a b : Frac) : Option Frac :=
  if b.n = 0 then none
  else (qDiv a b).map (fun q => qSub a (qMul b ⟨fracTrunc q, 1⟩))

def qPow (a b : Frac) : Option Frac :=
  if Int.emod b.n b.d ≠ 0 then none   -- non-integer exponent: outside the model
  else
    let e := Int.ediv b.n b.d
    if 0 ≤ e then some ⟨a.n ^ e.toNat, a.d ^ e.toNat⟩
    else if a.n = 0 then none         -- 0 to a negative power is not finite
    else some (fracNorm (a.d ^ (-e).toNat) (a.n ^ (-e).toNat))

inductive MTok where
  | num (q : Frac)
  | plus | minus | star | slash | percent | caret | lpar | rpar
deriving DecidableEq, Repr

-- the token of a single non-digit character, if any
def charTok (c : Char) : Option MTok :=
  if c = '+' then some MTok.plus
  else if c = '-' then some MTok.minus
  else if c = '*' then some MTok.star
  else if c = '/' then some MTok.slash
  else if c = '%' then some MTok.percent
  else if c = '^' then some MTok.caret
  else if c = '(' then some MTok.lpar
  else if c = ')' then some MTok.rpar
  else none

def mevalTokenizeF : Nat → List Char → Option (List MTok)
  | 0, _ => none
  | _ + 1, [] => some []
  | f + 1, c :: rest =>
    if c.isDigit then
      (mevalTokenizeF f (rest.dropWhile Char.isDigit)).map
        (fun ts => MTok.num (fracOfNat (digitsVal (c :: rest.takeWhile Char.isDigit))) :: ts)
    else
      match charTok c with
      | some t => (mevalTokenizeF f rest).map (t :: ·)
      | none => none

def mevalTokenize (s : List Char) : Option (List MTok) := mevalTokenizeF (s.length + 1) s

-- the characters `meval`'s tokenizer accepts on this code's inputs
def mevalAllowed (c : Char) : Bool :=
  c.isDigit || c = '+' || c = '-' || c = '*' || c = '/' || c = '%' || c = '^' ||
    c = '(' || c = ')'

/-- Parsing modes of the precedence-climbing parser: `sum` / `prod` levels
with their left-accumulator continuation modes, unary `+`/`-` (binding
looser than `^`, as in `meval` where `-2^2 = -4`), and the atom/power
level (`^` is right-associative and its exponent re-enters `unary`). -/
inductive PMode where
  | sum | sumRest (a : Frac) | prod | prodRest (a : Frac) | unary | pow | powRest (a : Frac)

def parseRun : Nat → PMode → List MTok → Option (Frac × List MTok)
  | 0, _, _ => none
  | f + 1, PMode.sum, ts =>
    (parseRun f PMode.prod ts).bind (fun ar => parseRun f (PMode.sumRest ar.1) ar.2)
  | f + 1, PMode.sumRest a, MTok.plus :: ts =>
    (parseRun f PMode.prod ts).bind (fun br => parseRun f (PMode.sumRest (qAdd a br.1)) br.2)
  | f + 1, PMode.sumRest a, MTok.minus :: ts =>
    (parseRun f PMode.prod ts).bind (fun br => parseRun f (PMode.sumRest (qSub a br.1)) br.2)
  | _ + 1, PMode.sumRest a, ts => some (a, ts)
  | f + 1, PMode.prod, ts =>
    (parseRun f PMode.unary ts).bind (fun ar => parseRun f (PMode.prodRest ar.1) ar.2)
  | f + 1, PMode.prodRest a, MTok.star :: ts =>
    (parseRun f PMode.unary ts).bind (fun br => parseRun f (PMode.prodRest (qMul a br.1)) br.2)
  | f + 1, PMode.prodRest a, MTok.slash :: ts =>
    (parseRun f PMode.unary ts).bind (fun br =>
      (qDiv a br.1).bind (fun q => parseRun f (PMode.prodRest q) br.2))
  | f + 1, PMode.prodRest a, MTok.percent :: ts =>
    (parseRun f PMode.unary ts).bind (fun br =>
      (qRem a br.1).bind (fun q => parseRun f (PMode.prodRest q) br.2))
  | _ + 1, PMode.prodRest a, ts => some (a, ts)
  | f + 1, PMode.unary, MTok.minus :: ts =>
    (parseRun f PMode.unary ts).map (fun ar => (qNeg ar.1, ar.2))
  | f + 1, PMode.unary, MTok.plus :: ts => parseRun f PMode.unary ts
  | f + 1, PMode.unary, ts => parseRun f PMode.pow ts
  | f + 1, PMode.pow, MTok.num q :: ts => parseRun f (PMode.powRest q) ts
  | f + 1, PMode.pow, MTok.lpar :: ts =>
    (parseRun f PMode.sum ts).bind (fun ar =>
      match ar.2 with
      | MTok.rpar :: ts' => parseRun f (PMode.powRest ar.1) ts'
      | _ => none)
  | _ + 1, PMode.pow, _ => none
  | f + 1, PMode.powRest a, MTok.caret :: ts =>
    (parseRun f PMode.unary ts).bind (fun br => (qPow a br.1).map (fun q => (q, br.2)))
  | _ + 1, PMode.powRest a, ts => some (a, ts)

def mevalEval (s : List Char) : Option Frac :=
  (mevalTokenize s).bind (fun ts =>
    (parseRun (8 * (ts.length + 1)) PMode.sum ts).bind (fun ar =>
      if ar.2 = [] then some ar.1 else none))

-- `str::find(pattern_char)`: the index of the first occurrence
def findCharIdx (c : Char) : List Char → Option Nat
  | [] => none
  | x :: rest => if x = c then some 0 else (findCharIdx c rest).map (· + 1)

/-! ## `evaluate_simple_expression` (lib.rs lines 230-264) -/

-- `String::contains(&str)`: some suffix starts with the pattern
def hasSubSeq (pat : List Char) : List Char → Bool
  | [] => pat.isEmpty
  | c :: rest => pat.isPrefixOf (c :: rest) || hasSubSeq pat rest

-- the body of the leading-zero scan: `chars[i] == '0' && chars[i+1].is_digit(10)
-- && (i == 0 || !chars[i-1].is_digit(10))` for some `i` in `0..chars.len()-1`
def leadingZeroHit (s : List Char) : Bool :=
  (List.range (s.length - 1)).any (fun i =>
    s.getD i ' ' == '0' && (s.getD (i + 1) ' ').isDigit &&
      (i == 0 || !(s.getD (i - 1) ' ').isDigit))

def evaluate_simple_expression (s : List Char) : Option Int :=
  if hasSubSeq ['N', 'a', 'N'] s then none
  -- the guard `expr.contains("0") && expr.matches(char::is_numeric).count() > 1`;
  -- on this code's strings `char::is_numeric` coincides with `is_digit(10)`
  else if s.contains '0' && (s.filter Char.isDigit).length > 1 && leadingZeroHit s then none
  else
    match mevalEval s with
    | none => none
    | some q =>
      -- `result.fract() == 0.0 && i32::MIN ≤ result ≤ i32::MAX`, then `result as i32`
      if Int.emod q.n q.d = 0 ∧ -2147483648 ≤ Int.ediv q.n q.d ∧ Int.ediv q.n q.d ≤ 2147483647
      then some (Int.ediv q.n q.d) else none

/-! ## Floor-bracket reduction (lib.rs lines 84-155)

`replacen(&format!("[{}]", inner), value, 1)` replaces the first
occurrence of `"[inner]"`; since the located span begins at the *first*
`'['` of the string and any occurrence of the pattern starts with `'['`,
that first occurrence is exactly the located span, so the replacement is
modelled as surgery on the span. -/

-- the matching-bracket scan: `depth = 1; end = start+1; while end < len && depth > 0 { .. }`;
-- the fuel covers every in-range position, so it never runs out
def findCloseSquareF : Nat → List Char → Nat → Nat → Option Nat
  | 0, _, _, _ => none
  | f + 1, s, e, depth =>
    if e < s.length then
      let depth' :=
        if s.getD e ' ' = '[' then depth + 1
        else if s.getD e ' ' = ']' then depth - 1
        else depth
      if depth' = 0 then some e else findCloseSquareF f s (e + 1) depth'
    else none

def findCloseSquare (s : List Char) (e : Nat) (depth : Nat) : Option Nat :=
  findCloseSquareF (s.length + 1 - e) s e depth

def bracketStep (s : List Char) : Option (List Char) :=
  match findCharIdx '[' s with
  | none => some s
  | some start =>
    match findCloseSquare s (start + 1) 1 with
    | none => none
    | some e =>
      let inner := (s.take e).drop (start + 1)
      let is_simple_number := inner.all Char.isDigit
      let parts := List.splitOn '/' inner
      let is_division_expr := parts.length = 2 ∧ (parts.getD 0 []).all Char.isDigit ∧
        (parts.getD 1 []).all Char.isDigit
      if ¬is_simple_number ∧ ¬is_division_expr then none
      else
        let inner_value : Option Int :=
          if is_simple_number then parse_i32 inner
          else
            match parse_i32 (parts.getD 0 []), parse_i32 (parts.getD 1 []) with
            | some num, some denom =>
              -- `(num as f64 / denom as f64).floor() as i32`: both operands are
              -- in `[0, 2^31)`, where the rounded `f64` quotient floors to the
              -- exact floor, i.e. `Int.fdiv`
              if denom = 0 then none else some (Int.fdiv num denom)
            | _, _ => none
        match inner_value with
        | some value => some (s.take start ++ intToChars value ++ s.drop (e + 1))
        | none => none

-- `while processed.contains('[') && iterations < 10`
def bracketLoop : Nat → List Char → Option (List Char)
  | 0, s => some s
  | f + 1, s => if s.contains '[' then (bracketStep s).bind (bracketLoop f) else some s

/-! ## Factorial reduction (lib.rs lines 157-184)

Each successful pass removes the leftmost `'!'` together with the digit
run scanned backwards from it; as above, the first occurrence of
`"<digits>!"` is the located span (any occurrence contains a `'!'`, and
the span's `'!'` is the leftmost one).  The loop is run on fuel equal to
the number of `'!'` characters, which each successful pass decreases by
exactly one, so the fuel never runs out on the code's own control path. -/

-- `while start > 0 && chars[start-1].is_digit(10) { start -= 1 }`
def scanDigitsBack (s : List Char) : Nat → Nat
  | 0 => 0
  | start + 1 => if (s.getD start ' ').isDigit then scanDigitsBack s start else start + 1

-- `for i in 2..=n { factorial *= i }`
def factOf (n : Nat) : Nat := (List.range' 2 (n - 1)).foldl (· * ·) 1

def factStep (s : List Char) (pos : Nat) : Option (List Char) :=
  if pos = 0 then none
  else
    let start := scanDigitsBack s (pos - 1)
    let num_str := (s.take pos).drop start
    match parse_i32 num_str with
    | none => none
    | some n =>
      if n < 0 ∨ 12 < n then none
      else some (s.take start ++ Nat.toDigits 10 (factOf n.toNat) ++ s.drop (pos + 1))

def factLoop : Nat → List Char → Option (List Char)
  | 0, s =>
    match findCharIdx '!' s with
    | none => some s
    | some _ => none
  | f + 1, s =>
    match findCharIdx '!' s with
    | none => some s
    | some pos => (factStep s pos).bind (factLoop f)

/-! ## Permutation reduction (lib.rs lines 186-221) -/

-- `while n_end < len && chars[n_end].is_digit(10) { n_end += 1 }`
def scanDigitsFwdF : Nat → List Char → Nat → Nat
  | 0, _, i => i
  | f + 1, s, i =>
    if i < s.length ∧ (s.getD i ' ').isDigit then scanDigitsFwdF f s (i + 1) else i

def scanDigitsFwd (s : List Char) (i : Nat) : Nat := scanDigitsFwdF (s.length + 1 - i) s i

-- `for i in 0..n { result *= m - i }`
def fallingProduct (m n : Nat) : Nat := (List.range n).foldl (fun acc i => acc * (m - i)) 1

def permStep (s : List Char) (pos : Nat) : Option (List Char) :=
  if pos = 0 ∨ pos = s.length - 1 then none
  else
    let m_start := scanDigitsBack s (pos - 1)
    let n_end := scanDigitsFwd s (pos + 1)
    let m_str := (s.take pos).drop m_start
    let n_str := (s.take n_end).drop (pos + 1)
    match parse_i32 m_str, parse_i32 n_str with
    | some m, some n =>
      if m < 0 ∨ n < 0 ∨ 10 < m ∨ 10 < n ∨ m < n then none
      else some (s.take m_start ++ Nat.toDigits 10 (fallingProduct m.toNat n.toNat) ++ s.drop n_end)
    | _, _ => none

def permLoop : Nat → List Char → Option (List Char)
  | 0, s =>
    match findCharIdx 'A' s with
    | none => some s
    | some _ => none
  | f + 1, s =>
    match findCharIdx 'A' s with
    | none => some s
    | some pos => (permStep s pos).bind (permLoop f)

/-! ## `evaluate_expression` (lib.rs lines 77-228)

A method on `SumzleSolver` in Rust, but it reads no field of `self`. -/

def evaluate_expression (s : List Char) : Option Int :=
  if s.isEmpty then none
  else
    match bracketLoop 10 s with
    | none => none
    | some s₁ =>
      -- `if bracket_iterations >= max && processed.contains('[') { return None }`
      if s₁.contains '[' then none
      else
        match factLoop (s₁.count '!') s₁ with
        | none => none
        | some s₂ =>
          match permLoop (s₂.count 'A') s₂ with
          | none => none
          | some s₃ => evaluate_simple_expression s₃

/-! ## `is_valid_equation` (lib.rs lines 270-326)

The main-operator scan; `none` models the early `return false` on
conflicting depth-0 comparison operators. -/

def findMainOpLoop : List Char → Nat → Int → Option Char → Nat → Option (Option Char × Nat)
  | [], _, _, mo, mi => some (mo, mi)
  | c :: rest, i, depth, mo, mi =>
    if c = '(' ∨ c = '[' then findMainOpLoop rest (i + 1) (depth + 1) mo mi
    else if c = ')' ∨ c = ']' then findMainOpLoop rest (i + 1) (depth - 1) mo mi
    else if depth = 0 ∧ (c = '=' ∨ c = '>') then
      match mo with
      | none => findMainOpLoop rest (i + 1) depth (some c) i
      | some op =>
        if op = '>' ∧ c = '=' then findMainOpLoop rest (i + 1) depth (some '>') mi
        else if op ≠ c then none
        else findMainOpLoop rest (i + 1) depth mo mi
    else findMainOpLoop rest (i + 1) depth mo mi

def is_valid_equation (expression : List Char) : Bool :=
  if ¬check_brackets expression then false
  else
    match findMainOpLoop expression 0 0 none 0 with
    | none => false
    | some (none, _) => false
    | some (some op, main_op_index) =>
      if main_op_index = 0 ∨ main_op_index = expression.length - 1 then false
      else
        let left_side := expression.take main_op_index
        let right_side := expression.drop (main_op_index + 1)
        if left_side.isEmpty ∨ right_side.isEmpty then false
        else
          match evaluate_expression left_side, evaluate_expression right_side with
          | some left_value, some right_value =>
            match op with
            | '=' => left_value == right_value
            | '>' => decide (right_value < left_value)
            | _ => false
          | _, _ => false

def is_valid_solution (expression : List Char) : Bool := is_valid_equation expression

/-! ## Data model of the solver and the feedback input (lib.rs lines 24-61)

`search` first decodes the JSON `constraints_json` with `serde`; the
decoding layer is an external collaborator (spec §1), so the embedding
takes the decoded `Constraints` value directly.  `HashSet` and `HashMap`
are modelled as insertion-ordered duplicate-free lists; every use in the
code is either a key lookup, a membership test, or an iteration whose
effect (an existential conflict check, or an all-entries gate) does not
depend on iteration order, so a fixed deterministic order is faithful. -/

structure Tile where
  char : String
  state : String
deriving DecidableEq, Repr

abbrev Row := List Tile

structure Constraints where
  rows : List Row
deriving DecidableEq, Repr

structure GlobalKnowledge where
  fixed_chars : List (Option Char)
  cannot_be_at : List (List Char)
  must_appear_min_count : List (Char × Nat)
  must_appear_exact_count : List (Char × Nat)
  globally_forbidden : List Char
deriving DecidableEq, Repr

structure FloorContext where
  in_floor : Bool
  has_slash_in_current_floor : Bool
deriving DecidableEq, Repr

structure SumzleSolver where
  length : Nat
  max_operand_value : Int
deriving DecidableEq, Repr

def valid_chars : List Char := "0123456789+-*/%^=()![]>A".toList

-- `HashSet::insert`
def insertSet (l : List Char) (c : Char) : List Char := if c ∈ l then l else l ++ [c]

-- `HashMap::insert` (replacing) and `HashMap::get`
def alInsert (l : List (Char × Nat)) (c : Char) (n : Nat) : List (Char × Nat) :=
  if l.any (fun p => p.1 == c) then l.map (fun p => if p.1 = c then (c, n) else p)
  else l ++ [(c, n)]

def alGet (l : List (Char × Nat)) (c : Char) : Option Nat :=
  (l.find? (fun p => p.1 == c)).map (·.2)

/-! ## `preprocess_constraints`: positional loop (lib.rs lines 401-433) -/

structure PosState where
  fixed_chars : List (Option Char)
  cannot_be_at : List (List Char)
deriving DecidableEq, Repr

-- the `"correct"` arm after its conflict check: pin the symbol and forbid
-- every other alphabet symbol at this position
def setCorrect (st : PosState) (c : Nat) (tile_char : Char) : PosState :=
  { fixed_chars := st.fixed_chars.set c (some tile_char),
    cannot_be_at := st.cannot_be_at.set c
      (valid_chars.foldl (fun acc vc => if vc ≠ tile_char then insertSet acc vc else acc)
        (st.cannot_be_at.getD c [])) }

def processTile (len : Nat) (st : PosState) (c : Nat) (t : Tile) : Option PosState :=
  -- `if c >= self.length || tile.char.is_empty() { continue; }`
  if len ≤ c ∨ t.char.isEmpty then some st
  else
    let tile_char := t.char.toList.headD ' '   -- `tile.char.chars().next().unwrap()`
    if t.state = "correct" then
      match st.fixed_chars.getD c none with
      | some fixed => if fixed ≠ tile_char then none else some (setCorrect st c tile_char)
      | none => some (setCorrect st c tile_char)
    else if t.state = "present" ∨ t.state = "empty" then
      some { st with
             cannot_be_at := st.cannot_be_at.set c
               (insertSet (st.cannot_be_at.getD c []) tile_char) }
    else some st

def processRowTiles (len : Nat) : PosState → Nat → Row → Option PosState
  | st, _, [] => some st
  | st, c, t :: ts => (processTile len st c t).bind (fun st' => processRowTiles len st' (c + 1) ts)

def posPhase (len : Nat) (rows : List Row) : Option PosState :=
  rows.foldlM (fun st row => processRowTiles len st 0 row)
    { fixed_chars := List.replicate len none, cannot_be_at := List.replicate len [] }

/-! ## `preprocess_constraints`: count derivation (lib.rs lines 435-494)

Note that unlike the positional loop, none of these loops restricts the
tile index to `c < length`: tiles beyond `length` take part in the count
derivation. -/

def all_chars_in_guesses (rows : List Row) : List Char :=
  rows.foldl (fun acc row =>
    row.foldl (fun acc t =>
      if t.char.isEmpty then acc else insertSet acc (t.char.toList.headD ' ')) acc) []

def tileIsChar (t : Tile) (ch : Char) : Bool :=
  ¬t.char.isEmpty && t.char.toList.headD ' ' == ch

def rowMentions (row : Row) (ch : Char) : Bool := row.any (fun t => tileIsChar t ch)

def greenInRow (row : Row) (ch : Char) : Nat :=
  row.foldl (fun g t => if tileIsChar t ch ∧ t.state = "correct" then g + 1 else g) 0

def yellowInRow (row : Row) (ch : Char) : Nat :=
  row.foldl (fun y t => if tileIsChar t ch ∧ t.state = "present" then y + 1 else y) 0

def rowHasEmptyState (row : Row) (ch : Char) : Bool :=
  row.any (fun t => tileIsChar t ch && t.state == "empty")

-- one iteration of `for row in &constraints.rows` inside the per-character
-- loop; the accumulator is `(min_required_overall, derived_exact_count)`
def charRowStep (ch : Char) (acc : Nat × Option Nat) (row : Row) : Option (Nat × Option Nat) :=
  if ¬rowMentions row ch then some acc
  else
    let minRow := greenInRow row ch + yellowInRow row ch
    let minOverall := max acc.1 minRow
    if rowHasEmptyState row ch then
      match acc.2 with
      | some count => if count ≠ minRow then none else some (minOverall, some count)
      | none => some (minOverall, some minRow)
    else some (minOverall, acc.2)

structure CountMaps where
  must_appear_min_count : List (Char × Nat)
  must_appear_exact_count : List (Char × Nat)
  globally_forbidden : List Char
deriving DecidableEq, Repr

def processCountChar (rows : List Row) (cm : CountMaps) (ch : Char) : Option CountMaps :=
  (rows.foldlM (charRowStep ch) (0, none)).bind (fun acc =>
    let cm₁ := { cm with must_appear_min_count := alInsert cm.must_appear_min_count ch acc.1 }
    match acc.2 with
    | none => some cm₁
    | some exact =>
      if exact < acc.1 then none
      else
        let cm₂ :=
          { cm₁ with must_appear_exact_count := alInsert cm₁.must_appear_exact_count ch exact }
        if exact = 0 ∧ acc.1 = 0 then
          some { cm₂ with globally_forbidden := insertSet cm₂.globally_forbidden ch }
        else some cm₂)

def countPhase (rows : List Row) : Option CountMaps :=
  (all_chars_in_guesses rows).foldlM (processCountChar rows)
    { must_appear_min_count := [], must_appear_exact_count := [], globally_forbidden := [] }

/-! ## `preprocess_constraints`: conflict cross-checks (lib.rs lines 496-531) -/

-- one iteration of `for i in 0..self.length`: checks for a pinned symbol
-- and the in-place bump of its minimum count to at least 1
def fixedCheckStep (fixed_chars : List (Option Char)) (cannot_be_at : List (List Char))
    (exact : List (Char × Nat)) (forb : List Char)
    (minMap : List (Char × Nat)) (i : Nat) : Option (List (Char × Nat)) :=
  match fixed_chars.getD i none with
  | none => some minMap
  | some fixed =>
    if fixed ∈ forb then none
    else if fixed ∈ cannot_be_at.getD i [] then none
    else
      let min_count := (alGet minMap fixed).getD 0
      let minMap' := alInsert minMap fixed (max min_count 1)
      match alGet exact fixed with
      | some exact_count =>
        if exact_count < (alGet minMap' fixed).getD 0 then none else some minMap'
      | none => some minMap'

def exactEntryPos (exact : List (Char × Nat)) (c : Char) : Bool :=
  match alGet exact c with
  | some n => decide (0 < n)
  | none => false

def preprocess_constraints (S : SumzleSolver) (constraints : Constraints) : Option GlobalKnowledge :=
  (posPhase S.length constraints.rows).bind (fun ps =>
    (countPhase constraints.rows).bind (fun cm =>
      ((List.range S.length).foldlM
          (fixedCheckStep ps.fixed_chars ps.cannot_be_at cm.must_appear_exact_count
            cm.globally_forbidden)
          cm.must_appear_min_count).bind (fun minMap' =>
        -- `for (char, &exact) in &gk.must_appear_exact_count`
        if cm.must_appear_exact_count.any (fun p => decide (p.2 < (alGet minMap' p.1).getD 0)) then
          none
        -- `for &char in &gk.globally_forbidden`
        else if cm.globally_forbidden.any
            (fun ch => decide (0 < (alGet minMap' ch).getD 0) || exactEntryPos cm.must_appear_exact_count ch) then
          none
        else
          some { fixed_chars := ps.fixed_chars,
                 cannot_be_at := ps.cannot_be_at,
                 must_appear_min_count := minMap',
                 must_appear_exact_count := cm.must_appear_exact_count,
                 globally_forbidden := cm.globally_forbidden })))

/-! ## `can_place_char` (lib.rs lines 537-809)

The Rust function is a sequence of independent, side-effect-free blocks,
each of which may `return false`; it returns `true` only when no block
fires.  It is therefore modelled as the conjunction of the negations of
one "violation" predicate per block, in source order.  The candidate
buffer is passed as the built prefix (`current_expression`, of length
`index`); the Rust code only ever reads indices `< index` of its buffer
(stale sentinel values beyond the cursor are never read). -/

-- `let prev_char = if index > 0 { Some(expr[index-1]) } else { None }`
def prevCharAt (expr : List Char) (index : Nat) : Option Char :=
  if 0 < index then some (expr.getD (index - 1) (Char.ofNat 0)) else none

-- lines 545-555
def globalViolation (gk : GlobalKnowledge) (char : Char) (index : Nat) : Bool :=
  gk.globally_forbidden.contains char ||
  (match gk.fixed_chars.getD index none with
   | some fixed => fixed ≠ char
   | none => false) ||
  (gk.cannot_be_at.getD index []).contains char

-- lines 558-564
def countViolation (gk : GlobalKnowledge) (counts : Char → Nat) (char : Char) : Bool :=
  match alGet gk.must_appear_exact_count char with
  | some exact_count => decide (exact_count ≤ counts char)
  | none => false

-- lines 567-603; `'\0'` is the Rust default for `prev_char` here
def floorViolation (fc : FloorContext) (char : Char) (index : Nat) (expr : List Char) : Bool :=
  if fc.in_floor then
    if char = '[' then true
    else if is_operator char ∧ char ≠ '/' then true
    else if is_main_operator char then true
    else if char = '(' then true
    else if char = 'A' ∨ char = '!' then true
    else if char = '/' then
      if fc.has_slash_in_current_floor then true
      else
        let prev_char := if 0 < index then expr.getD (index - 1) (Char.ofNat 0) else Char.ofNat 0
        ¬is_digit prev_char ∨ index = 0
    else if char = ']' then
      let prev_char := if 0 < index then expr.getD (index - 1) (Char.ofNat 0) else Char.ofNat 0
      if ¬is_digit prev_char then true
      else ¬fc.has_slash_in_current_floor
    else ¬is_digit char
  else false

-- lines 606-614; `self.length - 3` saturates like the release-mode usize
-- only for `length ≥ 3` (the solver is never built smaller where `[` matters)
def bracketCtxViolation (S : SumzleSolver) (fc : FloorContext) (char : Char) (index : Nat) : Bool :=
  (char = '[' ∧ fc.in_floor) ∨ (char = ']' ∧ ¬fc.in_floor) ∨ (char = '[' ∧ S.length - 3 ≤ index)

-- the backwards digit scan of lines 619-623: the digit run ending just
-- before `index` and the character preceding that run
def digitRunBack (expr : List Char) (index : Nat) : List Char × Option Char :=
  let pre := expr.take index
  ((pre.reverse.takeWhile is_digit).reverse, (pre.reverse.dropWhile is_digit).head?)

-- lines 617-638
def numberViolation (S : SumzleSolver) (char : Char) (index : Nat) (expr : List Char)
    (main_op_so_far : Option Char) : Bool :=
  if is_digit char ∧ main_op_so_far ≠ some '=' then
    let rb := digitRunBack expr index
    let temp_num_str := rb.1 ++ [char]
    if 1 < temp_num_str.length ∧ temp_num_str.headD ' ' = '0' then true
    else
      let fresh_run :=
        match rb.2 with
        | none => true
        | some cb => is_operator cb ∨ is_open_bracket cb ∨ is_main_operator cb
      if fresh_run then
        match parse_i32 temp_num_str with
        | some num => decide (S.max_operand_value < num)
        | none => false
      else false
  else false

-- lines 643-647
def firstPosViolation (char : Char) (index : Nat) : Bool :=
  index = 0 ∧ (is_binary_operator char ∨ is_close_bracket char ∨ is_main_operator char ∨
    is_unary_post_operator char)

-- lines 649-707
def adjacencyViolation (char : Char) (index : Nat) (expr : List Char) (fc : FloorContext) : Bool :=
  match prevCharAt expr index with
  | none => false
  | some prev =>
    if is_digit prev then
      (is_open_bracket char ∧ char ≠ '[') ∨ (char = '[' ∧ fc.in_floor)
    else if is_operator prev then
      (is_binary_operator char ∧ ¬(prev = 'A' ∧ (is_open_bracket char ∨ is_digit char)) ∧
        ¬is_unary_post_operator prev) ∨
      is_close_bracket char ∨
      (is_main_operator char ∧ ¬is_unary_post_operator prev) ∨
      (is_unary_post_operator prev ∧ (is_digit char ∨ is_open_bracket char))
    else if is_open_bracket prev then
      (prev = '[' ∧ char = '(') ∨
      is_binary_operator char ∨
      (is_close_bracket char ∧ get_matching_bracket prev ≠ some char) ∨
      is_main_operator char ∨
      is_unary_post_operator char
    else if is_close_bracket prev then
      is_digit char ∨ is_open_bracket char
    else if is_main_operator prev then
      if prev = '=' then ¬is_digit char ∧ char ≠ '-'
      else is_main_operator char ∨ is_close_bracket char
    else false

-- lines 709-722: the nested `-` case returns `false` exactly when
-- `prev_char == Some('=') && index >= self.length - 1`
def rhsViolation (S : SumzleSolver) (char : Char) (index : Nat) (expr : List Char)
    (main_op_so_far : Option Char) : Bool :=
  if main_op_so_far = some '=' then
    if ¬is_digit char ∧ char ≠ '-' then true
    else char = '-' ∧ prevCharAt expr index = some '=' ∧ S.length - 1 ≤ index
  else false

-- lines 724-728
def lastPosViolation (S : SumzleSolver) (char : Char) (index : Nat) : Bool :=
  index = S.length - 1 ∧ (is_binary_operator char ∨ is_open_bracket char ∨ is_main_operator char)

-- lines 731-755: the re-derivation of both bracket depths with a stack;
-- the Rust `Vec` push/pop maps to cons/head on the list
def bracketScanAux : List Char → Int → Int → List Char → Option (Int × Int)
  | [], pd, sd, _ => some (pd, sd)
  | c :: rest, pd, sd, stack =>
    if c = '(' then bracketScanAux rest (pd + 1) sd ('(' :: stack)
    else if c = '[' then bracketScanAux rest pd (sd + 1) ('[' :: stack)
    else if c = ')' then
      if pd - 1 < 0 ∨ stack.head? ≠ some '(' then none
      else bracketScanAux rest (pd - 1) sd stack.tail
    else if c = ']' then
      if sd - 1 < 0 ∨ stack.head? ≠ some '[' then none
      else bracketScanAux rest pd (sd - 1) stack.tail
    else bracketScanAux rest pd sd stack

def bracketScanViolation (S : SumzleSolver) (char : Char) (index : Nat)
    (expr : List Char) : Bool :=
  match bracketScanAux (expr.take index ++ [char]) 0 0 [] with
  | none => true
  | some (pd, sd) => index = S.length - 1 ∧ (pd ≠ 0 ∨ sd ≠ 0)

-- lines 762-774
def mainOpViolation (S : SumzleSolver) (char : Char) (index : Nat)
    (main_op_so_far : Option Char) : Bool :=
  if is_main_operator char then
    (match main_op_so_far with
     | some main_op =>
       decide ((main_op ≠ char ∧ ¬(main_op = '>' ∧ char = '=')) ∨ (main_op = char ∧ char = '='))
     | none => false) ||
    decide (index = 0 ∨ S.length - 1 ≤ index)
  else false

-- lines 777-787 (both `A` blocks)
def permOpViolation (char : Char) (index : Nat) (expr : List Char) : Bool :=
  (decide (char = 'A') &&
    (match prevCharAt expr index with
     | none => true
     | some prev => decide (¬is_digit prev ∧ ¬is_close_bracket prev))) ||
  decide (prevCharAt expr index = some 'A' ∧ ¬is_digit char ∧ ¬is_open_bracket char)

-- lines 789-806; note the evaluator probe on the literal `"0!"`
def bangViolation (char : Char) (index : Nat) (expr : List Char) : Bool :=
  if char = '!' then
    match prevCharAt expr index with
    | none => true
    | some prev =>
      if is_digit prev then prev = '0' ∧ (evaluate_expression ['0', '!']).isNone
      else if is_close_bracket prev then prev = ']'
      else true
  else false

def can_place_char (S : SumzleSolver) (char : Char) (index : Nat)
    (current_expression : List Char) (main_op_so_far : Option Char)
    (current_expression_counts : Char → Nat) (floor_context : FloorContext)
    (gk : GlobalKnowledge) : Bool :=
  !globalViolation gk char index &&
  !countViolation gk current_expression_counts char &&
  !floorViolation floor_context char index current_expression &&
  !bracketCtxViolation S floor_context char index &&
  !numberViolation S char index current_expression main_op_so_far &&
  !firstPosViolation char index &&
  !adjacencyViolation char index current_expression floor_context &&
  !rhsViolation S char index current_expression main_op_so_far &&
  !lastPosViolation S char index &&
  !bracketScanViolation S char index current_expression &&
  !mainOpViolation S char index main_op_so_far &&
  !permOpViolation char index current_expression &&
  !bangViolation char index current_expression

/-! ## `get_optimized_char_order` (lib.rs lines 812-872) -/

def get_optimized_char_order (S : SumzleSolver) (index : Nat) (expr : List Char)
    (main_op_so_far : Option Char) (fc : FloorContext) (gk : GlobalKnowledge) : List Char :=
  match gk.fixed_chars.getD index none with
  | some fixed => [fixed]
  | none =>
    let prev_char := if 0 < index then expr.getD (index - 1) (Char.ofNat 0) else Char.ofNat 0
    let ordered :=
      if fc.in_floor then
        if fc.has_slash_in_current_floor then "0123456789]".toList else "0123456789/".toList
      else if main_op_so_far = some '=' then
        if prev_char = '=' then "-0123456789".toList else "0123456789".toList
      else if index = 0 then "123456789([".toList
      else if is_digit prev_char then "0123456789+-*/%^A!)]=>[".toList
      else if is_binary_operator prev_char ∨ prev_char = 'A' ∨
          (is_main_operator prev_char ∧ prev_char ≠ '=') then "1234567890([".toList
      else if is_open_bracket prev_char then "1234567890([".toList
      else if is_close_bracket prev_char ∨ is_unary_post_operator prev_char then
        "+-*/%^A!)]=>[".toList
      else "1234567890+-*/=()[]%^!A>".toList
    let ordered :=
      if index = S.length - 1 ∧ ¬fc.in_floor then
        let end_chars := "0123456789)]!".toList
        let retained := ordered.filter (fun c => end_chars.contains c)
        if retained.isEmpty ∧ prev_char ≠ Char.ofNat 0 then end_chars
        else if retained.isEmpty ∧ index = 0 ∧ S.length = 1 then
          retained ++ "0123456789".toList
        else retained
      else ordered
    -- `// Remove duplicates and filter by constraints`
    ordered.foldl (fun unique c =>
      if ¬unique.contains c ∧ ¬gk.globally_forbidden.contains c ∧
          ¬(gk.cannot_be_at.getD index []).contains c
      then unique ++ [c] else unique) []

/-! ## `recursive_search` and `search` (lib.rs lines 875-1005)

The Rust code mutates one shared candidate buffer and count map with a
strict place/undo discipline; the pure model passes the built prefix and
the count function down and returns the accumulated result list, so the
undo is implicit.  The count map always equals the multiset of the
prefix (entries decremented to 0 are removed and reads default to 0, so
the function model is exact).  The recursion depth is `length - index`;
`search` supplies `length` as fuel, so the fuel-exhaustion branch is
never taken on the code's own control path. -/

def newMainOp (c : Char) (mop : Option Char) : Option Char :=
  if is_main_operator c then some c else mop

def nextFloorContext (c : Char) (fc : FloorContext) : FloorContext :=
  if c = '[' then ⟨true, false⟩
  else if c = ']' ∧ fc.in_floor then ⟨false, false⟩
  else if c = '/' ∧ fc.in_floor then ⟨true, true⟩
  else fc

def bumpCount (counts : Char → Nat) (c : Char) : Char → Nat :=
  fun d => if d = c then counts d + 1 else counts d

def recursive_search (S : SumzleSolver) (gk : GlobalKnowledge) :
    Nat → List Char → Option Char → (Char → Nat) → FloorContext → List (List Char)
  | fuel, expr, mop, counts, fc =>
    if expr.length = S.length then
      -- terminal checks, lines 885-920 (`searched_count` is diagnostic only)
      if mop.isNone then []
      else if ¬check_brackets expr then []
      else if gk.must_appear_exact_count.any (fun p => decide (counts p.1 ≠ p.2)) then []
      else if gk.must_appear_min_count.any
          (fun p => decide ((alGet gk.must_appear_exact_count p.1).isNone ∧ counts p.1 < p.2)) then
        []
      else if is_valid_solution expr then [expr]
      else []
    else
      match fuel with
      | 0 => []
      | fuel + 1 =>
        match gk.fixed_chars.getD expr.length none with
        | some fixed =>
          if can_place_char S fixed expr.length expr mop counts fc gk then
            recursive_search S gk fuel (expr ++ [fixed]) (newMainOp fixed mop)
              (bumpCount counts fixed) (nextFloorContext fixed fc)
          else []
        | none =>
          (get_optimized_char_order S expr.length expr mop fc gk).foldr
            (fun char_to_try acc =>
              (if can_place_char S char_to_try expr.length expr mop counts fc gk then
                recursive_search S gk fuel (expr ++ [char_to_try]) (newMainOp char_to_try mop)
                  (bumpCount counts char_to_try) (nextFloorContext char_to_try fc)
              else []) ++ acc) []

def search (S : SumzleSolver) (constraints : Constraints) : List (List Char) :=
  match preprocess_constraints S constraints with
  | none => []
  | some gk => recursive_search S gk S.length [] none (fun _ => 0) ⟨false, false⟩

/-! ## Derived observations used by the theorems -/

-- the number of comparison operators at bracket depth 0, classifying
-- brackets exactly as the scan of `is_valid_equation` does
def depth0CompCount : List Char → Int → Nat
  | [], _ => 0
  | c :: rest, depth =>
    if c = '(' ∨ c = '[' then depth0CompCount rest (depth + 1)
    else if c = ')' ∨ c = ']' then depth0CompCount rest (depth - 1)
    else if depth = 0 ∧ (c = '=' ∨ c = '>') then 1 + depth0CompCount rest depth
    else depth0CompCount rest depth

-- the net bracket-depth contribution of a string, with the scan's
-- bracket classification
def bracketDelta : List Char → Int
  | [] => 0
  | c :: rest =>
    (if c = '(' ∨ c = '[' then 1 else if c = ')' ∨ c = ']' then -1 else 0) + bracketDelta rest

-- index `i` starts a numeral token of length > 1 with a leading '0':
-- the proposition scanned for by the leading-zero loop of
-- `evaluate_simple_expression`
def lzPatternAt (s : List Char) (i : Nat) : Prop :=
  s[i]? = some '0' ∧ (∃ d, s[i + 1]? = some d ∧ d.isDigit) ∧
    (i = 0 ∨ ∀ e, s[i - 1]? = some e → ¬e.isDigit)

-- the per-row data the constraint compiler actually reads: position,
-- first symbol character and state of every tile carrying a symbol
def rowProjAux : Nat → Row → List (Nat × Char × String)
  | _, [] => []
  | c, t :: ts =>
    if t.char.isEmpty then rowProjAux (c + 1) ts
    else (c, t.char.toList.headD ' ', t.state) :: rowProjAux (c + 1) ts

def rowProj (row : Row) : List (Nat × Char × String) := rowProjAux 0 row

-- the positional step expressed on a projected tile: the body of
-- `processTile` after its empty-symbol skip
def processTileProj (len : Nat) (st : PosState) (c : Nat) (ch : Char) (s0 : String) :
    Option PosState :=
  if len ≤ c then some st
  else if s0 = "correct" then
    match st.fixed_chars.getD c none with
    | some fixed => if fixed ≠ ch then none else some (setCorrect st c ch)
    | none => some (setCorrect st c ch)
  else if s0 = "present" ∨ s0 = "empty" then
    some { st with
           cannot_be_at := st.cannot_be_at.set c
             (insertSet (st.cannot_be_at.getD c []) ch) }
  else some st

def processProjTiles (len : Nat) : PosState → List (Nat × Char × String) → Option PosState
  | st, [] => some st
  | st, e :: rest =>
    (processTileProj len st e.1 e.2.1 e.2.2).bind (fun st' => processProjTiles len st' rest)

def posPhaseProj (len : Nat) (projs : List (List (Nat × Char × String))) : Option PosState :=
  projs.foldlM (fun st pr => processProjTiles len st pr)
    { fixed_chars := List.replicate len none, cannot_be_at := List.replicate len [] }

def projMentions (pr : List (Nat × Char × String)) (ch : Char) : Bool :=
  pr.any (fun e => e.2.1 == ch)

def greenInProj (pr : List (Nat × Char × String)) (ch : Char) : Nat :=
  pr.foldl (fun g e => if e.2.1 = ch ∧ e.2.2 = "correct" then g + 1 else g) 0

def yellowInProj (pr : List (Nat × Char × String)) (ch : Char) : Nat :=
  pr.foldl (fun y e => if e.2.1 = ch ∧ e.2.2 = "present" then y + 1 else y) 0

def projHasEmptyState (pr : List (Nat × Char × String)) (ch : Char) : Bool :=
  pr.any (fun e => e.2.1 == ch && e.2.2 == "empty")

def charRowStepProj (ch : Char) (acc : Nat × Option Nat) (pr : List (Nat × Char × String)) :
    Option (Nat × Option Nat) :=
  if ¬projMentions pr ch then some acc
  else
    let minRow := greenInProj pr ch + yellowInProj pr ch
    let minOverall := max acc.1 minRow
    if projHasEmptyState pr ch then
      match acc.2 with
      | some count => if count ≠ minRow then none else some (minOverall, some count)
      | none => some (minOverall, some minRow)
    else some (minOverall, acc.2)

def charsOfProjs (projs : List (List (Nat × Char × String))) : List Char :=
  projs.foldl (fun acc pr => pr.foldl (fun acc e => insertSet acc e.2.1) acc) []

def processCountCharProj (projs : List (List (Nat × Char × String))) (cm : CountMaps)
    (ch : Char) : Option CountMaps :=
  (projs.foldlM (charRowStepProj ch) (0, none)).bind (fun acc =>
    let cm₁ := { cm with must_appear_min_count := alInsert cm.must_appear_min_count ch acc.1 }
    match acc.2 with
    | none => some cm₁
    | some exact =>
      if exact < acc.1 then none
      else
        let cm₂ :=
          { cm₁ with must_appear_exact_count := alInsert cm₁.must_appear_exact_count ch exact }
        if exact = 0 ∧ acc.1 = 0 then
          some { cm₂ with globally_forbidden := insertSet cm₂.globally_forbidden ch }
        else some cm₂)

def countPhaseProj (projs : List (List (Nat × Char × String))) : Option CountMaps :=
  (charsOfProjs projs).foldlM (processCountCharProj projs)
    { must_appear_min_count := [], must_appear_exact_count := [], globally_forbidden := [] }

-- search invariant for the leading-zero property: before a main `=` is
-- placed the prefix is pattern-free (and holds no `=`); afterwards the
-- part before the `=` is pattern-free and everything after it is a digit
-- or `-`
def lzInv (pre : List Char) (mop : Option Char) : Prop :=
  if mop = some '=' then
    ∃ a b, pre = a ++ '=' :: b ∧ '=' ∉ a ∧ (¬∃ i, lzPatternAt (a ++ ['=']) i) ∧
      ∀ c ∈ b, is_digit c = true ∨ c = '-'
  else '=' ∉ pre ∧ ¬∃ i, lzPatternAt pre i

-- search invariant for the knowledge-respecting property: pinned
-- positions already built agree with the pin, and no placed character is
-- globally forbidden
def gkInv (gk : GlobalKnowledge) (pre : List Char) : Prop :=
  (∀ i, i < pre.length → ∀ f, gk.fixed_chars.getD i none = some f → pre[i]? = some f) ∧
  (∀ c ∈ pre, gk.globally_forbidden.contains c = false)

/-! ## Concrete fixtures for witnesses and counterexamples -/

def solver1 : SumzleSolver := ⟨1, 100⟩
def solver2 : SumzleSolver := ⟨2, 100⟩
def solver3 : SumzleSolver := ⟨3, 100⟩
def solver5 : SumzleSolver := ⟨5, 100⟩

-- the spec's conflict scenario: position 0 pinned to '5' in one row and
-- to '6' in another
def conflictFeedback : Constraints := ⟨[[⟨"5", "correct"⟩], [⟨"6", "correct"⟩]]⟩

-- feedback pinning the candidate "1=1" completely
def pinnedFeedback : Constraints :=
  ⟨[[⟨"1", "correct"⟩, ⟨"=", "correct"⟩, ⟨"1", "correct"⟩]]⟩

-- as above, plus a second row deriving the exact count 2 for '1' (its
-- "empty" tile sits beyond `length` so it adds no positional constraint)
def exactCountFeedback : Constraints :=
  ⟨[[⟨"1", "correct"⟩, ⟨"=", "correct"⟩, ⟨"1", "correct"⟩],
    [⟨"1", "correct"⟩, ⟨"1", "present"⟩, ⟨"", "empty"⟩, ⟨"1", "empty"⟩]]⟩

-- the knowledge compiled from empty feedback for a length-5 solver
def gkEmpty5 : GlobalKnowledge :=
  (preprocess_constraints solver5 ⟨[]⟩).getD ⟨[], [], [], [], []⟩

-- the knowledge compiled from `exactCountFeedback` for the length-3 solver
def gkExact3 : GlobalKnowledge :=
  (preprocess_constraints solver3 exactCountFeedback).getD ⟨[], [], [], [], []⟩

end Sumzle

namespace Sumzle

/-! # Helper lemmas

## Layer 1: the first-occurrence scan, `parse::<i32>`, the tokenizer and
`evaluate_simple_expression` -/

theorem findCharIdx_eq_none {c : Char} {s : List Char} (h : c ∉ s) : findCharIdx c s = none := by
  induction s with
  | nil => rfl
  | cons x rest ih =>
    simp only [List.mem_cons, not_or] at h
    simp [findCharIdx, Ne.symm h.1, ih h.2]

theorem findCharIdx_mem {c : Char} {s : List Char} (h : c ∈ s) :
    ∃ i, findCharIdx c s = some i := by
  induction s with
  | nil => cases h
  | cons x rest ih =>
    by_cases hx : x = c
    · exact ⟨0, by simp [findCharIdx, hx]⟩
    · rcases List.mem_cons.mp h with rfl | hm
      · exact absurd rfl hx
      · obtain ⟨i, hi⟩ := ih hm
        exact ⟨i + 1, by simp [findCharIdx, hx, hi]⟩

theorem findCharIdx_get {c : Char} {s : List Char} {i : Nat}
    (h : findCharIdx c s = some i) : s[i]? = some c := by
  induction s generalizing i with
  | nil => cases h
  | cons x rest ih =>
    by_cases hx : x = c
    · simp [findCharIdx, hx] at h
      simp [← h, hx]
    · simp only [findCharIdx, if_neg hx] at h
      rcases Option.map_eq_some'.mp h with ⟨j, hj, rfl⟩
      simpa using ih hj

theorem findCharIdx_lt {c : Char} {s : List Char} {i : Nat}
    (h : findCharIdx c s = some i) : i < s.length := by
  have := findCharIdx_get h
  exact List.getElem?_eq_some.mp this |>.1

theorem parseDigits_some {ds : List Char} {n : Nat} (h : parseDigits ds = some n) :
    ds ≠ [] ∧ ∀ x ∈ ds, x.isDigit := by
  unfold parseDigits at h
  split at h
  · next hcond => exact ⟨hcond.1, fun x hx => (List.all_eq_true.mp hcond.2) x hx⟩
  · cases h

theorem parse_i32_some_mem {ds : List Char} {n : Int} (h : parse_i32 ds = some n) :
    ∀ x ∈ ds, x.isDigit ∨ x = '+' ∨ x = '-' := by
  intro x hx
  unfold parse_i32 at h
  match ds, hx with
  | c :: ds', hx =>
    simp only at h
    split at h
    · next hc =>
      rcases Option.bind_eq_some.mp h with ⟨m, hm, -⟩
      rcases List.mem_cons.mp hx with rfl | hx'
      · exact Or.inr (Or.inl hc)
      · exact Or.inl ((parseDigits_some hm).2 x hx')
    · split at h
      · next hc =>
        rcases Option.bind_eq_some.mp h with ⟨m, hm, -⟩
        rcases List.mem_cons.mp hx with rfl | hx'
        · exact Or.inr (Or.inr hc)
        · exact Or.inl ((parseDigits_some hm).2 x hx')
      · rcases Option.bind_eq_some.mp h with ⟨m, hm, -⟩
        exact Or.inl ((parseDigits_some hm).2 x hx)

theorem getLast?_of_all_digits {ds : List Char} (hne : ds ≠ [])
    (hall : ∀ x ∈ ds, x.isDigit) : ∃ d, ds.getLast? = some d ∧ d.isDigit := by
  obtain ⟨d, hd⟩ := Option.isSome_iff_exists.mp (List.getLast?_isSome.mpr hne)
  exact ⟨d, hd, hall d (List.mem_of_getLast?_eq_some hd)⟩

theorem getLast?_cons_of_ne_nil {c : Char} {ds : List Char} (hne : ds ≠ []) :
    (c :: ds).getLast? = ds.getLast? := by
  match ds, hne with
  | b :: t, _ => exact List.getLast?_cons_cons

theorem parse_i32_some_last {ds : List Char} {n : Int} (h : parse_i32 ds = some n) :
    ∃ d, ds.getLast? = some d ∧ d.isDigit := by
  unfold parse_i32 at h
  match ds with
  | c :: ds' =>
    simp only at h
    split at h
    · rcases Option.bind_eq_some.mp h with ⟨m, hm, -⟩
      obtain ⟨hne, hall⟩ := parseDigits_some hm
      obtain ⟨d, hd, hdig⟩ := getLast?_of_all_digits hne hall
      exact ⟨d, by rw [getLast?_cons_of_ne_nil hne]; exact hd, hdig⟩
    · split at h
      · rcases Option.bind_eq_some.mp h with ⟨m, hm, -⟩
        obtain ⟨hne, hall⟩ := parseDigits_some hm
        obtain ⟨d, hd, hdig⟩ := getLast?_of_all_digits hne hall
        exact ⟨d, by rw [getLast?_cons_of_ne_nil hne]; exact hd, hdig⟩
      · rcases Option.bind_eq_some.mp h with ⟨m, hm, -⟩
        obtain ⟨hne, hall⟩ := parseDigits_some hm
        exact getLast?_of_all_digits hne hall

theorem charTok_some_allowed {c : Char} {t : MTok} (h : charTok c = some t) :
    mevalAllowed c = true := by
  unfold charTok at h
  split_ifs at h <;> simp_all [mevalAllowed]

theorem mevalTokenizeF_mem {f : Nat} {s : List Char} {ts : List MTok}
    (h : mevalTokenizeF f s = some ts) : ∀ c ∈ s, mevalAllowed c = true := by
  induction f generalizing s ts with
  | zero => simp [mevalTokenizeF] at h
  | succ f ih =>
    match s with
    | [] => intro c hc; cases hc
    | x :: rest =>
      intro c hc
      unfold mevalTokenizeF at h
      by_cases hd : x.isDigit
      · rw [if_pos hd] at h
        rcases Option.map_eq_some'.mp h with ⟨ts', hts', -⟩
        rcases List.mem_cons.mp hc with rfl | hc'
        · simp [mevalAllowed, hd]
        · conv at hc' => rw [← List.takeWhile_append_dropWhile (p := Char.isDigit) (l := rest)]
          rcases List.mem_append.mp hc' with h1 | h2
          · simp [mevalAllowed, List.mem_takeWhile_imp h1]
          · exact ih hts' c h2
      · rw [if_neg hd] at h
        cases hct : charTok x with
        | none => rw [hct] at h; cases h
        | some t =>
          rw [hct] at h
          rcases Option.map_eq_some'.mp h with ⟨ts', hts', -⟩
          rcases List.mem_cons.mp hc with rfl | hc'
          · exact charTok_some_allowed hct
          · exact ih hts' c hc'

theorem mevalEval_mem {s : List Char} {q : Frac} (h : mevalEval s = some q) :
    ∀ c ∈ s, mevalAllowed c = true := by
  unfold mevalEval at h
  rcases Option.bind_eq_some.mp h with ⟨ts, hts, -⟩
  exact fun c hc => mevalTokenizeF_mem hts c hc

theorem evaluate_simple_some_mem {s : List Char} {v : Int}
    (h : evaluate_simple_expression s = some v) : ∀ c ∈ s, mevalAllowed c = true := by
  unfold evaluate_simple_expression at h
  split at h
  · cases h
  · split at h
    · cases h
    · cases hme : mevalEval s with
      | none => rw [hme] at h; cases h
      | some q => exact mevalEval_mem hme

theorem evaluate_simple_some_not_mem {s : List Char} {v : Int} {c : Char}
    (h : evaluate_simple_expression s = some v) (hc : mevalAllowed c = false) : c ∉ s :=
  fun hmem => by rw [evaluate_simple_some_mem h c hmem] at hc; cases hc

/-! ## Layer 2: the leading-zero pattern -/

theorem is_digit_eq (c : Char) : is_digit c = c.isDigit := rfl

theorem leadingZeroHit_of_pattern {s : List Char} {i : Nat} (h : lzPatternAt s i) :
    leadingZeroHit s = true := by
  obtain ⟨h0, ⟨d, hd, hdig⟩, hbd⟩ := h
  have hi : i < s.length := (List.getElem?_eq_some.mp h0).1
  have hi1 : i + 1 < s.length := (List.getElem?_eq_some.mp hd).1
  unfold leadingZeroHit
  rw [List.any_eq_true]
  refine ⟨i, List.mem_range.mpr (by omega), ?_⟩
  have g0 : s.getD i ' ' = '0' := by rw [List.getD_eq_getElem?_getD, h0]; rfl
  have g1 : s.getD (i + 1) ' ' = d := by rw [List.getD_eq_getElem?_getD, hd]; rfl
  simp only [g0, g1, hdig, beq_self_eq_true, Bool.true_and, Bool.and_true,
    Bool.or_eq_true, beq_iff_eq, Bool.not_eq_true']
  rcases hbd with rfl | hbd
  · exact Or.inl rfl
  · by_cases hi0 : i = 0
    · exact Or.inl hi0
    · have hvi : i - 1 < s.length := by omega
      have g2 : s.getD (i - 1) ' ' = s[i - 1] := by
        rw [List.getD_eq_getElem?_getD, List.getElem?_eq_getElem hvi]; rfl
      refine Or.inr ?_
      rw [g2]
      exact Bool.not_eq_true _ ▸ (by
        have := hbd s[i - 1] (List.getElem?_eq_getElem hvi)
        simpa using this)

theorem pattern_of_leadingZeroHit {s : List Char} (h : leadingZeroHit s = true) :
    ∃ i, lzPatternAt s i := by
  unfold leadingZeroHit at h
  rw [List.any_eq_true] at h
  obtain ⟨i, hir, hcond⟩ := h
  have hilt : i < s.length - 1 := List.mem_range.mp hir
  have hi : i < s.length := by omega
  have hi1 : i + 1 < s.length := by omega
  simp only [Bool.and_eq_true, Bool.or_eq_true, beq_iff_eq, Bool.not_eq_true'] at hcond
  obtain ⟨⟨g0, g1⟩, g2⟩ := hcond
  refine ⟨i, ?_, ⟨s[i + 1], List.getElem?_eq_getElem hi1, ?_⟩, ?_⟩
  · rw [List.getElem?_eq_getElem hi]
    rw [List.getD_eq_getElem?_getD, List.getElem?_eq_getElem hi] at g0
    simpa using g0
  · rw [List.getD_eq_getElem?_getD, List.getElem?_eq_getElem hi1] at g1
    simpa using g1
  · rcases g2 with g2 | g2
    · exact Or.inl g2
    · right
      intro e he
      have hvi : i - 1 < s.length := by omega
      rw [List.getElem?_eq_getElem hvi] at he
      rw [List.getD_eq_getElem?_getD, List.getElem?_eq_getElem hvi] at g2
      simp only [Option.some_inj] at he
      rw [← he]
      simpa using g2

theorem lzPattern_filter_two {s : List Char} {i : Nat} (h : lzPatternAt s i) :
    s.contains '0' = true ∧ 1 < (s.filter Char.isDigit).length := by
  obtain ⟨h0, ⟨d, hd, hdig⟩, -⟩ := h
  have hi : i < s.length := (List.getElem?_eq_some.mp h0).1
  have hi1 : i + 1 < s.length := (List.getElem?_eq_some.mp hd).1
  have hv0 : s[i] = '0' := (List.getElem?_eq_some.mp h0).2
  have hv1 : s[i + 1] = d := (List.getElem?_eq_some.mp hd).2
  constructor
  · have : '0' ∈ s := hv0 ▸ List.getElem_mem hi
    simpa using this
  · have hdecomp : s = s.take i ++ s[i] :: s[i + 1] :: s.drop (i + 2) := by
      conv_lhs => rw [← List.take_append_drop i s]
      rw [List.drop_eq_getElem_cons hi, List.drop_eq_getElem_cons hi1]
    rw [hdecomp, List.filter_append]
    simp only [List.length_append, List.filter_cons, hv0, hv1, hdig]
    simp
    omega

theorem lzPattern_simple_none {s : List Char} {i : Nat} (h : lzPatternAt s i) :
    evaluate_simple_expression s = none := by
  obtain ⟨hcont, hfilt⟩ := lzPattern_filter_two h
  unfold evaluate_simple_expression
  split
  · rfl
  · rw [if_pos ?_]
    simp only [hcont, leadingZeroHit_of_pattern h, Bool.and_true, Bool.true_and]
    simpa using hfilt

theorem getElem?_append_lt {s t : List Char} {j : Nat} (h : j < s.length) :
    (s ++ t)[j]? = s[j]? := by rw [List.getElem?_append]; exact if_pos h

theorem lzPattern_transfer_left {s t : List Char} {i : Nat}
    (h0 : (s ++ t)[i]? = some '0') (hd : ∃ d, (s ++ t)[i + 1]? = some d ∧ d.isDigit)
    (hbd : i = 0 ∨ ∀ e, (s ++ t)[i - 1]? = some e → ¬e.isDigit)
    (hi1 : i + 1 < s.length) : lzPatternAt s i := by
  obtain ⟨d, hd, hdig⟩ := hd
  refine ⟨?_, ⟨d, ?_, hdig⟩, ?_⟩
  · rw [← getElem?_append_lt (t := t) (by omega)]; exact h0
  · rw [← getElem?_append_lt (t := t) hi1]; exact hd
  · rcases hbd with rfl | hbd
    · exact Or.inl rfl
    · refine Or.inr fun e he => hbd e ?_
      rw [getElem?_append_lt (by omega)]
      exact he

theorem lzPattern_snoc_not_digit {s : List Char} {c : Char} (hc : c.isDigit = false)
    (hno : ¬∃ i, lzPatternAt s i) : ¬∃ i, lzPatternAt (s ++ [c]) i := by
  rintro ⟨i, h0, ⟨d, hd, hdig⟩, hbd⟩
  have hlen := (List.getElem?_eq_some.mp hd).1
  simp only [List.length_append, List.length_cons, List.length_nil] at hlen
  by_cases hi1 : i + 1 < s.length
  · exact hno ⟨i, lzPattern_transfer_left h0 ⟨d, hd, hdig⟩ hbd hi1⟩
  · have hieq : i + 1 = s.length := by omega
    rw [List.getElem?_append_right (by omega), hieq] at hd
    simp only [Nat.sub_self, List.getElem?_cons_zero, Option.some_inj] at hd
    rw [← hd] at hdig
    rw [hdig] at hc
    cases hc

theorem lzPattern_glue {x y : List Char} {m : Char} (hm : m.isDigit = false)
    (hx : ¬∃ i, lzPatternAt (x ++ [m]) i) (hy : ¬∃ i, lzPatternAt y i) :
    ¬∃ i, lzPatternAt (x ++ m :: y) i := by
  have hassoc : x ++ m :: y = (x ++ [m]) ++ y := by simp
  rw [hassoc]
  set P := x ++ [m] with hP
  have hPlen : P.length = x.length + 1 := by simp [hP]
  rintro ⟨i, h0, ⟨d, hd, hdig⟩, hbd⟩
  by_cases hi1 : i + 1 < P.length
  · exact hx ⟨i, lzPattern_transfer_left h0 ⟨d, hd, hdig⟩ hbd hi1⟩
  · by_cases hiP : i < P.length
    · -- `i` is the last index of `P`, i.e. the separator `m` itself
      have hieq : i = x.length := by omega
      rw [getElem?_append_lt hiP, hP, List.getElem?_append_right (by omega), hieq] at h0
      simp only [Nat.sub_self, List.getElem?_cons_zero, Option.some_inj] at h0
      rw [h0] at hm
      cases hm
    · -- the pattern sits inside `y`
      have hiL : P.length ≤ i := by omega
      apply hy
      refine ⟨i - P.length, ?_, ⟨d, ?_, hdig⟩, ?_⟩
      · rw [← h0, List.getElem?_append_right hiL]
      · rw [← hd, List.getElem?_append_right (by omega)]
        congr 1
        omega
      · rcases hbd with rfl | hbd
        · exact absurd hiL (by simp [hPlen])
        · by_cases hiL1 : i = P.length
          · -- the preceding character inside `y`'s frame is the separator
            left
            omega
          · right
            intro e he
            refine hbd e ?_
            rw [List.getElem?_append_right (by omega)]
            rw [← he]
            congr 1
            omega

theorem takeWhile_reverse_single {s : List Char} {i : Nat}
    (h0 : s[i]? = some '0') (hieq : i + 1 = s.length)
    (hbd : i = 0 ∨ ∀ e, s[i - 1]? = some e → ¬e.isDigit) :
    s.reverse.takeWhile is_digit = ['0'] := by
  have hi : i < s.length := by omega
  have hrev0 : s.reverse.head? = some '0' := by
    rw [List.head?_reverse, List.getLast?_eq_getElem?]
    have : s.length - 1 = i := by omega
    rw [this]
    exact h0
  match hsr : s.reverse with
  | [] => rw [hsr] at hrev0; cases hrev0
  | z :: tl =>
    rw [hsr] at hrev0
    simp only [List.head?_cons, Option.some_inj] at hrev0
    subst hrev0
    rw [List.takeWhile_cons_of_pos (by decide)]
    rcases hbd with rfl | hbd
    · -- the string has length 1, so the tail of the reverse is empty
      have : s.length = 1 := by omega
      have : tl = [] := by
        have hl := congrArg List.length hsr
        simp [this] at hl
        exact hl
      simp [this]
    · match htl : tl with
      | [] => simp
      | e :: tl' =>
        have hre : s.reverse[1]? = some e := by rw [hsr]; simp
        have hrl : 1 < s.reverse.length := by
          rw [hsr]; simp
        rw [List.getElem?_reverse (by simpa using hrl)] at hre
        have : s.length - 1 - 1 = i - 1 := by omega
        rw [this] at hre
        have := hbd e hre
        rw [List.takeWhile_cons_of_neg (by simpa [is_digit_eq] using this)]

theorem lzPattern_snoc_digit {s : List Char} {c : Char}
    (hno : ¬∃ i, lzPatternAt s i)
    (hgate : ¬(1 < ((s.reverse.takeWhile is_digit).reverse ++ [c]).length ∧
        ((s.reverse.takeWhile is_digit).reverse ++ [c]).headD ' ' = '0')) :
    ¬∃ i, lzPatternAt (s ++ [c]) i := by
  rintro ⟨i, h0, ⟨d, hd, hdig⟩, hbd⟩
  have hlen := (List.getElem?_eq_some.mp hd).1
  simp only [List.length_append, List.length_cons, List.length_nil] at hlen
  by_cases hi1 : i + 1 < s.length
  · exact hno ⟨i, lzPattern_transfer_left h0 ⟨d, hd, hdig⟩ hbd hi1⟩
  · have hieq : i + 1 = s.length := by omega
    -- the new character extends a run whose single previous character is '0'
    have h0s : s[i]? = some '0' := by
      rw [← h0, getElem?_append_lt (by omega)]
    have hbds : i = 0 ∨ ∀ e, s[i - 1]? = some e → ¬e.isDigit := by
      rcases hbd with rfl | hbd
      · exact Or.inl rfl
      · refine Or.inr fun e he => hbd e ?_
        rw [getElem?_append_lt (by omega)]
        exact he
    have hrun := takeWhile_reverse_single h0s hieq hbds
    apply hgate
    rw [hrun]
    exact ⟨by simp, by simp⟩

/-! ## Layer 3: the reduction pipeline -/

theorem mem_of_get {s : List Char} {i : Nat} {c : Char} (h : s[i]? = some c) : c ∈ s := by
  obtain ⟨hlt, hv⟩ := List.getElem?_eq_some.mp h
  exact hv ▸ List.getElem_mem hlt

theorem toDigitsCore_acc_ne_nil {b f n : Nat} {acc : List Char} (h : acc ≠ []) :
    Nat.toDigitsCore b f n acc ≠ [] := by
  induction f generalizing n acc with
  | zero => simpa [Nat.toDigitsCore]
  | succ f ih =>
    unfold Nat.toDigitsCore
    dsimp only
    split
    · simp
    · exact ih (by simp)

theorem toDigits_ne_nil {n : Nat} : Nat.toDigits 10 n ≠ [] := by
  unfold Nat.toDigits Nat.toDigitsCore
  dsimp only
  split
  · simp
  · exact toDigitsCore_acc_ne_nil (by simp)

theorem intToChars_ne_nil {n : Int} : intToChars n ≠ [] := by
  unfold intToChars
  split
  · simp
  · exact toDigits_ne_nil

-- a list splits as prefix, span and suffix around positions `i ≤ j`
theorem span_decomp {s : List Char} {i j : Nat} (hij : i ≤ j) :
    s = s.take i ++ (s.take j).drop i ++ s.drop j := by
  have h2 : (s.take j).take i = s.take i := by
    rw [List.take_take]
    congr 1
    omega
  calc s = s.take j ++ s.drop j := (List.take_append_drop j s).symm
    _ = ((s.take j).take i ++ (s.take j).drop i) ++ s.drop j := by
        rw [List.take_append_drop i (s.take j)]
    _ = _ := by rw [h2, List.append_assoc]

theorem scanDigitsBack_le {s : List Char} : ∀ k, scanDigitsBack s k ≤ k := by
  intro k
  induction k with
  | zero => simp [scanDigitsBack]
  | succ k ih =>
    unfold scanDigitsBack
    split
    · omega
    · omega

theorem findCloseSquareF_spec {f : Nat} {s : List Char} {e d e' : Nat}
    (h : findCloseSquareF f s e d = some e') (hd : d ≠ 0) :
    e ≤ e' ∧ e' < s.length ∧ s[e']? = some ']' := by
  induction f generalizing e d with
  | zero => cases h
  | succ f ih =>
    unfold findCloseSquareF at h
    split at h
    case isTrue he =>
      dsimp only at h
      by_cases h1 : s.getD e ' ' = '['
      · rw [if_pos h1, if_neg (by omega : ¬(d + 1 = 0))] at h
        obtain ⟨ha, hb, hc⟩ := ih h (by omega)
        exact ⟨by omega, hb, hc⟩
      · rw [if_neg h1] at h
        by_cases h2 : s.getD e ' ' = ']'
        · rw [if_pos h2] at h
          by_cases hz : d - 1 = 0
          · rw [if_pos hz] at h
            cases h
            refine ⟨le_refl _, he, ?_⟩
            rw [List.getElem?_eq_getElem he]
            rw [List.getD_eq_getElem?_getD, List.getElem?_eq_getElem he] at h2
            simpa using h2
          · rw [if_neg hz] at h
            obtain ⟨ha, hb, hc⟩ := ih h hz
            exact ⟨by omega, hb, hc⟩
        · rw [if_neg h2, if_neg hd] at h
          obtain ⟨ha, hb, hc⟩ := ih h hd
          exact ⟨by omega, hb, hc⟩
    case isFalse => cases h

theorem pair_infix_getElem {a b : Char} {L : List Char} :
    [a, b] <:+: L ↔ ∃ i, L[i]? = some a ∧ L[i + 1]? = some b := by
  constructor
  · rintro ⟨l, r, rfl⟩
    refine ⟨l.length, ?_, ?_⟩
    · rw [getElem?_append_lt (by simp), List.getElem?_append_right (Nat.le_refl _)]
      simp
    · rw [getElem?_append_lt (by simp), List.getElem?_append_right (by omega)]
      have : l.length + 1 - l.length = 1 := by omega
      rw [this]
      simp
  · rintro ⟨i, ha, hb⟩
    have hi : i < L.length := (List.getElem?_eq_some.mp ha).1
    have hi1 : i + 1 < L.length := (List.getElem?_eq_some.mp hb).1
    have hva : L[i] = a := (List.getElem?_eq_some.mp ha).2
    have hvb : L[i + 1] = b := (List.getElem?_eq_some.mp hb).2
    refine ⟨L.take i, L.drop (i + 2), ?_⟩
    conv_rhs => rw [← List.take_append_drop i L, List.drop_eq_getElem_cons hi,
      List.drop_eq_getElem_cons hi1]
    rw [hva, hvb]
    simp

/-- Replacing a middle span that does not hold the pair's first character,
does not begin with its second character, and is nonempty on both sides
preserves a two-character infix. -/
theorem pair_infix_replace {a b : Char} {A B C B' : List Char}
    (h : [a, b] <:+: A ++ B ++ C) (ha : a ∉ B) (hbh : B.head? ≠ some b)
    (hB : B ≠ []) : [a, b] <:+: A ++ B' ++ C := by
  rw [pair_infix_getElem] at h
  obtain ⟨i, hia, hib⟩ := h
  rw [List.append_assoc] at hia hib
  by_cases hiA : i + 1 < A.length
  · have pa : A[i]? = some a := by
      rw [← getElem?_append_lt (t := B ++ C) (by omega)]
      exact hia
    have pb : A[i + 1]? = some b := by
      rw [← getElem?_append_lt (t := B ++ C) hiA]
      exact hib
    have hin : [a, b] <:+: A := pair_infix_getElem.mpr ⟨i, pa, pb⟩
    rw [List.append_assoc]
    exact hin.trans (List.prefix_append A (B' ++ C)).isInfix
  · by_cases hiA2 : i < A.length
    · exfalso
      have hieq : i + 1 = A.length := by omega
      rw [List.getElem?_append_right (by omega), hieq, Nat.sub_self] at hib
      rw [← List.head?_eq_getElem?] at hib
      obtain ⟨x, Bt, rfl⟩ : ∃ x Bt, B = x :: Bt := by
        cases B with
        | nil => exact absurd rfl hB
        | cons x Bt => exact ⟨x, Bt, rfl⟩
      simp only [List.cons_append, List.head?_cons, Option.some_inj] at hib
      exact hbh (by rw [List.head?_cons, hib])
    · have hiA3 : A.length ≤ i := by omega
      rw [List.getElem?_append_right hiA3] at hia
      by_cases hiB : i - A.length < B.length
      · exact absurd (mem_of_get (by rw [← getElem?_append_lt hiB]; exact hia)) ha
      · have hBC : B.length ≤ i - A.length := by omega
        rw [List.getElem?_append_right hBC] at hia
        rw [List.getElem?_append_right (by omega : A.length ≤ i + 1),
          List.getElem?_append_right (by omega : B.length ≤ i + 1 - A.length)] at hib
        have hin : [a, b] <:+: C := by
          refine pair_infix_getElem.mpr ⟨i - A.length - B.length, hia, ?_⟩
          rw [← hib]
          congr 1
          omega
        exact hin.trans (List.suffix_append (A ++ B') C).isInfix

theorem bracketStep_decomp {s s' : List Char} {start : Nat}
    (hfind : findCharIdx '[' s = some start) (h : bracketStep s = some s') :
    ∃ e val, start < e ∧ e < s.length ∧
      (s.take (e + 1)).drop start = '[' :: ((s.take e).drop (start + 1) ++ [']']) ∧
      (∀ x ∈ (s.take e).drop (start + 1), x.isDigit = true ∨ x = '/') ∧
      s' = s.take start ++ intToChars val ++ s.drop (e + 1) := by
  unfold bracketStep at h
  rw [hfind] at h
  dsimp only at h
  cases hclose : findCloseSquare s (start + 1) 1 with
  | none => rw [hclose] at h; cases h
  | some e =>
    rw [hclose] at h
    dsimp only at h
    obtain ⟨he1, he2, he3⟩ := findCloseSquareF_spec hclose (by omega)
    have hse : start < e := by omega
    have hstart_lt : start < s.length := findCharIdx_lt hfind
    have hs_start : s[start]? = some '[' := findCharIdx_get hfind
    -- the span splits as `'['`, the inner text, and `']'`
    have hspan : (s.take (e + 1)).drop start = '[' :: ((s.take e).drop (start + 1) ++ [']']) := by
      have htse : s.take (e + 1) = s.take e ++ [']'] := by
        rw [List.take_succ, he3]
        rfl
      have hlen_te : (s.take e).length = e := by
        rw [List.length_take]
        omega
      rw [htse, List.drop_append_of_le_length (by omega),
        List.drop_eq_getElem_cons (by omega : start < (s.take e).length)]
      have : (s.take e)[start] = '[' := by
        rw [List.getElem_take]
        exact (List.getElem?_eq_some.mp hs_start).2
      rw [this]
      simp
    split at h
    · cases h
    · next hguard =>
      rw [not_and_or, not_not, not_not] at hguard
      by_cases hsimple : ((s.take e).drop (start + 1)).all Char.isDigit = true
      · rw [if_pos hsimple] at h
        cases hp : parse_i32 ((s.take e).drop (start + 1)) with
        | none =>
          rw [hp] at h
          dsimp only at h
          cases h
        | some val =>
          rw [hp] at h
          dsimp only at h
          simp only [Option.some_inj] at h
          exact ⟨e, val, hse, he2, hspan,
            fun x hx => Or.inl (List.all_eq_true.mp hsimple x hx), h.symm⟩
      · rw [if_neg hsimple] at h
        have hdiv : (List.splitOn '/' ((s.take e).drop (start + 1))).length = 2 ∧
            ((List.splitOn '/' ((s.take e).drop (start + 1))).getD 0 []).all Char.isDigit = true ∧
            ((List.splitOn '/' ((s.take e).drop (start + 1))).getD 1 []).all Char.isDigit = true := by
          rcases hguard with hg | hg
          · exact absurd hg hsimple
          · exact hg
        have hcontent : ∀ x ∈ (s.take e).drop (start + 1), x.isDigit = true ∨ x = '/' := by
          intro x hx
          obtain ⟨hlen2, hp0, hp1⟩ := hdiv
          cases hsp : List.splitOn '/' ((s.take e).drop (start + 1)) with
          | nil => rw [hsp] at hlen2; cases hlen2
          | cons p0 rest =>
            cases rest with
            | nil => rw [hsp] at hlen2; cases hlen2
            | cons p1 rest2 =>
              cases rest2 with
              | cons _ _ => rw [hsp] at hlen2; simp at hlen2
              | nil =>
                have hinter := @List.intercalate_splitOn _ ((s.take e).drop (start + 1)) '/' _
                rw [hsp] at hinter hp0 hp1
                simp only [List.intercalate, List.intersperse, List.flatten] at hinter
                rw [← hinter] at hx
                simp only [List.getD] at hp0 hp1
                rcases List.mem_append.mp hx with hx0 | hx1
                · exact Or.inl (List.all_eq_true.mp (by simpa using hp0) x
                    (by simpa using hx0))
                · rcases List.mem_append.mp hx1 with hxs | hxp
                  · simp only [List.mem_singleton] at hxs
                    exact Or.inr hxs
                  · exact Or.inl (List.all_eq_true.mp (by simpa using hp1) x
                      (by simpa using hxp))
        -- evaluate the division value
        cases hp0v : parse_i32 ((List.splitOn '/' ((s.take e).drop (start + 1))).getD 0 []) with
        | none =>
          rw [hp0v] at h
          dsimp only at h
          cases h
        | some num =>
          cases hp1v : parse_i32 ((List.splitOn '/' ((s.take e).drop (start + 1))).getD 1 []) with
          | none =>
            rw [hp0v, hp1v] at h
            dsimp only at h
            cases h
          | some denom =>
            rw [hp0v, hp1v] at h
            dsimp only at h
            by_cases hz : denom = 0
            · rw [if_pos hz] at h
              dsimp only at h
              cases h
            · rw [if_neg hz] at h
              dsimp only at h
              simp only [Option.some_inj] at h
              exact ⟨e, Int.fdiv num denom, hse, he2, hspan, hcontent, h.symm⟩

theorem bracketStep_mem {s s' : List Char} {c : Char}
    (h : bracketStep s = some s') (hdig : c.isDigit = false)
    (h1 : c ≠ '[') (h2 : c ≠ ']') (h3 : c ≠ '/') (hm : c ∈ s) : c ∈ s' := by
  cases hfind : findCharIdx '[' s with
  | none =>
    unfold bracketStep at h
    rw [hfind] at h
    dsimp only at h
    cases h
    exact hm
  | some start =>
    obtain ⟨e, val, hse, he2, hspan, hcontent, hs'⟩ := bracketStep_decomp hfind h
    have hdecomp := span_decomp (s := s) (i := start) (j := e + 1) (by omega)
    rw [hdecomp] at hm
    rw [hs']
    rcases List.mem_append.mp hm with hm' | hmr
    · rcases List.mem_append.mp hm' with hml | hmspan
      · exact List.mem_append.mpr (Or.inl (List.mem_append.mpr (Or.inl hml)))
      · exfalso
        rw [hspan] at hmspan
        rcases List.mem_cons.mp hmspan with rfl | hmspan'
        · exact h1 rfl
        · rcases List.mem_append.mp hmspan' with hin | hbr
          · rcases hcontent c hin with hd | hd
            · rw [hd] at hdig; cases hdig
            · exact h3 hd
          · simp only [List.mem_singleton] at hbr
            exact h2 hbr
    · exact List.mem_append.mpr (Or.inr hmr)

theorem bracketLoop_mem {f : Nat} {s s' : List Char} {c : Char}
    (h : bracketLoop f s = some s') (hdig : c.isDigit = false)
    (h1 : c ≠ '[') (h2 : c ≠ ']') (h3 : c ≠ '/') (hm : c ∈ s) : c ∈ s' := by
  induction f generalizing s with
  | zero => cases h; exact hm
  | succ f ih =>
    unfold bracketLoop at h
    split at h
    · rcases Option.bind_eq_some.mp h with ⟨s₁, hs₁, hloop⟩
      exact ih hloop (bracketStep_mem hs₁ hdig h1 h2 h3 hm)
    · cases h; exact hm

theorem bracketLoop_no_bracket {f : Nat} {s : List Char} (h : '[' ∉ s) :
    bracketLoop f s = some s := by
  cases f with
  | zero => rfl
  | succ f =>
    unfold bracketLoop
    rw [if_neg (by simpa using h)]

theorem bracketStep_pair {s s' : List Char} (h : bracketStep s = some s')
    (hp : [')', '!'] <:+: s) : [')', '!'] <:+: s' := by
  cases hfind : findCharIdx '[' s with
  | none =>
    unfold bracketStep at h
    rw [hfind] at h
    dsimp only at h
    cases h
    exact hp
  | some start =>
    obtain ⟨e, val, hse, he2, hspan, hcontent, hs'⟩ := bracketStep_decomp hfind h
    have hdecomp := span_decomp (s := s) (i := start) (j := e + 1) (by omega)
    rw [hdecomp] at hp
    rw [hs']
    refine pair_infix_replace hp ?_ ?_ ?_
    · rw [hspan]
      intro hin
      rcases List.mem_cons.mp hin with hbr | hin'
      · cases hbr
      · rcases List.mem_append.mp hin' with hin'' | hbr
        · rcases hcontent _ hin'' with hd | hd <;> cases hd
        · simp at hbr
    · rw [hspan]
      simp
    · rw [hspan]
      simp

theorem bracketLoop_pair {f : Nat} {s s' : List Char} (h : bracketLoop f s = some s')
    (hp : [')', '!'] <:+: s) : [')', '!'] <:+: s' := by
  induction f generalizing s with
  | zero => cases h; exact hp
  | succ f ih =>
    unfold bracketLoop at h
    split at h
    · rcases Option.bind_eq_some.mp h with ⟨s₁, hs₁, hloop⟩
      exact ih hloop (bracketStep_pair hs₁ hp)
    · cases h; exact hp

theorem scanDigitsFwd_ge {s : List Char} {f i : Nat} : i ≤ scanDigitsFwdF f s i := by
  induction f generalizing i with
  | zero => simp [scanDigitsFwdF]
  | succ f ih =>
    unfold scanDigitsFwdF
    split
    · exact le_trans (by omega) ih
    · exact le_refl i

theorem scanDigitsFwd_le_length {s : List Char} {f i : Nat} (h : i ≤ s.length) :
    scanDigitsFwdF f s i ≤ s.length := by
  induction f generalizing i with
  | zero => simpa [scanDigitsFwdF]
  | succ f ih =>
    unfold scanDigitsFwdF
    split
    · next hc => exact ih (by omega)
    · exact h

theorem factStep_decomp {s s' : List Char} {pos : Nat}
    (hpos : s[pos]? = some '!') (h : factStep s pos = some s') :
    ∃ start n, start < pos ∧
      (s.take (pos + 1)).drop start = (s.take pos).drop start ++ ['!'] ∧
      (s.take pos).drop start ≠ [] ∧
      (∀ x ∈ (s.take pos).drop start, x.isDigit = true ∨ x = '+' ∨ x = '-') ∧
      s' = s.take start ++ Nat.toDigits 10 n ++ s.drop (pos + 1) := by
  have hpos_lt : pos < s.length := (List.getElem?_eq_some.mp hpos).1
  unfold factStep at h
  split at h
  · cases h
  · next hpos0 =>
    dsimp only at h
    have hstartle : scanDigitsBack s (pos - 1) ≤ pos - 1 := scanDigitsBack_le _
    have hstartlt : scanDigitsBack s (pos - 1) < pos := by omega
    cases hp : parse_i32 ((s.take pos).drop (scanDigitsBack s (pos - 1))) with
    | none =>
      rw [hp] at h
      cases h
    | some n =>
      rw [hp] at h
      dsimp only at h
      split at h
      · cases h
      · simp only [Option.some_inj] at h
        refine ⟨scanDigitsBack s (pos - 1), factOf n.toNat, hstartlt, ?_, ?_, ?_, h.symm⟩
        · rw [List.take_succ, hpos]
          rw [List.drop_append_of_le_length (by rw [List.length_take]; omega)]
          rfl
        · have : ((s.take pos).drop (scanDigitsBack s (pos - 1))).length = pos -
              scanDigitsBack s (pos - 1) := by
            rw [List.length_drop, List.length_take]
            omega
          intro hnil
          rw [hnil] at this
          simp at this
          omega
        · exact parse_i32_some_mem hp

theorem factLoop_mem {f : Nat} {s s' : List Char} {c : Char}
    (h : factLoop f s = some s') (hdig : c.isDigit = false)
    (h1 : c ≠ '+') (h2 : c ≠ '-') (h3 : c ≠ '!') (hm : c ∈ s) : c ∈ s' := by
  induction f generalizing s with
  | zero =>
    unfold factLoop at h
    cases hfind : findCharIdx '!' s with
    | none => rw [hfind] at h; cases h; exact hm
    | some pos => rw [hfind] at h; cases h
  | succ f ih =>
    unfold factLoop at h
    cases hfind : findCharIdx '!' s with
    | none => rw [hfind] at h; cases h; exact hm
    | some pos =>
      rw [hfind] at h
      rcases Option.bind_eq_some.mp h with ⟨s₁, hstep, hloop⟩
      obtain ⟨start, n, hlt, hspan, hne, hcontent, hs₁⟩ :=
        factStep_decomp (findCharIdx_get hfind) hstep
      have hpos_lt : pos < s.length := findCharIdx_lt hfind
      have hdecomp := span_decomp (s := s) (i := start) (j := pos + 1) (by omega)
      refine ih hloop ?_
      rw [hdecomp] at hm
      rw [hs₁]
      rcases List.mem_append.mp hm with hm' | hmr
      · rcases List.mem_append.mp hm' with hml | hmspan
        · exact List.mem_append.mpr (Or.inl (List.mem_append.mpr (Or.inl hml)))
        · exfalso
          rw [hspan] at hmspan
          rcases List.mem_append.mp hmspan with hin | hbr
          · rcases hcontent c hin with hd | hd | hd
            · rw [hd] at hdig; cases hdig
            · exact h1 hd
            · exact h2 hd
          · simp only [List.mem_singleton] at hbr
            exact h3 hbr
      · exact List.mem_append.mpr (Or.inr hmr)

theorem factLoop_pair_none {f : Nat} {s : List Char} (hp : [')', '!'] <:+: s) :
    factLoop f s = none := by
  induction f generalizing s with
  | zero =>
    unfold factLoop
    obtain ⟨i, hi⟩ := findCharIdx_mem (c := '!') (s := s) (hp.subset (by decide))
    rw [hi]
  | succ f ih =>
    unfold factLoop
    obtain ⟨pos, hfind⟩ := findCharIdx_mem (c := '!') (s := s) (hp.subset (by decide))
    rw [hfind]
    dsimp only
    cases hstep : factStep s pos with
    | none => rfl
    | some s₁ =>
      simp only [Option.some_bind]
      obtain ⟨start, n, hlt, hspan, hne, hcontent, hs₁⟩ :=
        factStep_decomp (findCharIdx_get hfind) hstep
      have hpos_lt : pos < s.length := findCharIdx_lt hfind
      have hdecomp := span_decomp (s := s) (i := start) (j := pos + 1) (by omega)
      rw [hdecomp] at hp
      rw [hs₁]
      refine ih (pair_infix_replace hp ?_ ?_ ?_)
      · rw [hspan]
        intro hin
        rcases List.mem_append.mp hin with hin' | hbr
        · rcases hcontent _ hin' with hd | hd | hd <;> cases hd
        · simp at hbr
      · rw [hspan]
        obtain ⟨y, t, hyt⟩ : ∃ y t, (s.take pos).drop start = y :: t := by
          cases hx : (s.take pos).drop start with
          | nil => exact absurd hx hne
          | cons y t => exact ⟨y, t, rfl⟩
        rw [hyt]
        simp only [List.cons_append, List.head?_cons, ne_eq, Option.some_inj]
        rcases hcontent y (by rw [hyt]; simp) with hd | hd | hd <;>
          (intro hcontra; rw [hcontra] at hd; cases hd)
      · rw [hspan]
        simp

theorem factLoop_no_bang {f : Nat} {s : List Char} (h : findCharIdx '!' s = none) :
    factLoop f s = some s := by
  cases f <;> (unfold factLoop; rw [h])

theorem permLoop_no_A {f : Nat} {s : List Char} (h : findCharIdx 'A' s = none) :
    permLoop f s = some s := by
  cases f <;> (unfold permLoop; rw [h])

theorem permStep_decomp {s s' : List Char} {pos : Nat}
    (hpos : s[pos]? = some 'A') (h : permStep s pos = some s') :
    ∃ m_start n_end val, m_start < pos ∧ pos + 1 ≤ n_end ∧ n_end ≤ s.length ∧
      (s.take n_end).drop m_start =
        (s.take pos).drop m_start ++ 'A' :: (s.take n_end).drop (pos + 1) ∧
      (∀ x ∈ (s.take pos).drop m_start, x.isDigit = true ∨ x = '+' ∨ x = '-') ∧
      (∀ x ∈ (s.take n_end).drop (pos + 1), x.isDigit = true ∨ x = '+' ∨ x = '-') ∧
      s' = s.take m_start ++ Nat.toDigits 10 val ++ s.drop n_end := by
  have hpos_lt : pos < s.length := (List.getElem?_eq_some.mp hpos).1
  unfold permStep at h
  split at h
  · cases h
  · next hpos0 =>
    rw [not_or] at hpos0
    dsimp only at h
    have hmle : scanDigitsBack s (pos - 1) ≤ pos - 1 := scanDigitsBack_le _
    have hmlt : scanDigitsBack s (pos - 1) < pos := by
      have : pos ≠ 0 := hpos0.1
      omega
    have hnge : pos + 1 ≤ scanDigitsFwd s (pos + 1) := scanDigitsFwd_ge
    have hnle : scanDigitsFwd s (pos + 1) ≤ s.length := scanDigitsFwd_le_length (by omega)
    cases hm : parse_i32 ((s.take pos).drop (scanDigitsBack s (pos - 1))) with
    | none => rw [hm] at h; dsimp only at h; cases h
    | some m =>
      cases hn : parse_i32 ((s.take (scanDigitsFwd s (pos + 1))).drop (pos + 1)) with
      | none => rw [hm, hn] at h; dsimp only at h; cases h
      | some n =>
        rw [hm, hn] at h
        dsimp only at h
        split at h
        · cases h
        · simp only [Option.some_inj] at h
          refine ⟨scanDigitsBack s (pos - 1), scanDigitsFwd s (pos + 1),
            fallingProduct m.toNat n.toNat, hmlt, hnge, hnle, ?_,
            parse_i32_some_mem hm, parse_i32_some_mem hn, h.symm⟩
          set nE := scanDigitsFwd s (pos + 1) with hnE
          set mS := scanDigitsBack s (pos - 1) with hmS
          have hlen_tn : (s.take nE).length = nE := by
            rw [List.length_take]
            omega
          have hstep2 : (s.take nE).take pos = s.take pos := by
            rw [List.take_take]
            congr 1
            omega
          have hA : s[pos] = 'A' := (List.getElem?_eq_some.mp hpos).2
          have key : (s.take nE).drop pos = 'A' :: (s.take nE).drop (pos + 1) := by
            rw [List.drop_eq_getElem_cons (by rw [hlen_tn]; omega :
              pos < (s.take nE).length)]
            congr 1
            simp [List.getElem_take, hA]
          calc (s.take nE).drop mS
              = ((s.take nE).take pos ++ (s.take nE).drop pos).drop mS := by
                rw [List.take_append_drop]
            _ = ((s.take nE).take pos).drop mS ++ (s.take nE).drop pos :=
                List.drop_append_of_le_length
                  (by rw [hstep2, List.length_take]; omega)
            _ = (s.take pos).drop mS ++ 'A' :: (s.take nE).drop (pos + 1) := by
                rw [hstep2, key]

theorem permLoop_mem {f : Nat} {s s' : List Char} {c : Char}
    (h : permLoop f s = some s') (hdig : c.isDigit = false)
    (h1 : c ≠ '+') (h2 : c ≠ '-') (h3 : c ≠ 'A') (hm : c ∈ s) : c ∈ s' := by
  induction f generalizing s with
  | zero =>
    unfold permLoop at h
    cases hfind : findCharIdx 'A' s with
    | none => rw [hfind] at h; cases h; exact hm
    | some pos => rw [hfind] at h; cases h
  | succ f ih =>
    unfold permLoop at h
    cases hfind : findCharIdx 'A' s with
    | none => rw [hfind] at h; cases h; exact hm
    | some pos =>
      rw [hfind] at h
      rcases Option.bind_eq_some.mp h with ⟨s₁, hstep, hloop⟩
      obtain ⟨m_start, n_end, val, hlt, hnge, hnle, hspan, hcm, hcn, hs₁⟩ :=
        permStep_decomp (findCharIdx_get hfind) hstep
      have hdecomp := span_decomp (s := s) (i := m_start) (j := n_end) (by omega)
      refine ih hloop ?_
      rw [hdecomp] at hm
      rw [hs₁]
      rcases List.mem_append.mp hm with hm' | hmr
      · rcases List.mem_append.mp hm' with hml | hmspan
        · exact List.mem_append.mpr (Or.inl (List.mem_append.mpr (Or.inl hml)))
        · exfalso
          rw [hspan] at hmspan
          rcases List.mem_append.mp hmspan with hin | hbr
          · rcases hcm c hin with hd | hd | hd
            · rw [hd] at hdig; cases hdig
            · exact h1 hd
            · exact h2 hd
          · rcases List.mem_cons.mp hbr with rfl | hin
            · exact h3 rfl
            · rcases hcn c hin with hd | hd | hd
              · rw [hd] at hdig; cases hdig
              · exact h1 hd
              · exact h2 hd
      · exact List.mem_append.mpr (Or.inr hmr)

/-- Characters outside the reduction spans and outside `meval`'s grammar
cannot occur in a successfully evaluated expression. -/
theorem evaluate_expression_not_mem {s : List Char} {v : Int} {c : Char}
    (h : evaluate_expression s = some v) (hdig : c.isDigit = false)
    (hb1 : c ≠ '[') (hb2 : c ≠ ']') (hsl : c ≠ '/') (hpl : c ≠ '+') (hmn : c ≠ '-')
    (hbg : c ≠ '!') (hA : c ≠ 'A') (hallow : mevalAllowed c = false) : c ∉ s := by
  intro hm
  unfold evaluate_expression at h
  split at h
  · cases h
  · cases hb : bracketLoop 10 s with
    | none => rw [hb] at h; cases h
    | some s₁ =>
      rw [hb] at h
      dsimp only at h
      split at h
      · cases h
      · cases hf : factLoop (s₁.count '!') s₁ with
        | none => rw [hf] at h; cases h
        | some s₂ =>
          rw [hf] at h
          dsimp only at h
          cases hpm : permLoop (s₂.count 'A') s₂ with
          | none => rw [hpm] at h; cases h
          | some s₃ =>
            rw [hpm] at h
            dsimp only at h
            have m1 := bracketLoop_mem hb hdig hb1 hb2 hsl hm
            have m2 := factLoop_mem hf hdig hpl hmn hbg m1
            have m3 := permLoop_mem hpm hdig hpl hmn hA m2
            have := evaluate_simple_some_mem h c m3
            rw [this] at hallow
            cases hallow

theorem evaluate_some_no_eq {s : List Char} {v : Int}
    (h : evaluate_expression s = some v) : '=' ∉ s :=
  evaluate_expression_not_mem h (by decide) (by decide) (by decide) (by decide)
    (by decide) (by decide) (by decide) (by decide) (by decide)

theorem evaluate_some_no_gt {s : List Char} {v : Int}
    (h : evaluate_expression s = some v) : '>' ∉ s :=
  evaluate_expression_not_mem h (by decide) (by decide) (by decide) (by decide)
    (by decide) (by decide) (by decide) (by decide) (by decide)

/-- A `)` immediately followed by `!` always fails the whole evaluation:
the factorial pass eventually reaches that `!` and tries to parse a number
that ends in `)`. -/
theorem evaluate_pair_none {s : List Char} (hp : [')', '!'] <:+: s) :
    evaluate_expression s = none := by
  unfold evaluate_expression
  split
  · rfl
  · cases hb : bracketLoop 10 s with
    | none => rfl
    | some s₁ =>
      dsimp only
      split
      · rfl
      · rw [factLoop_pair_none (bracketLoop_pair hb hp)]

theorem evaluate_no_special {s : List Char} (h1 : '[' ∉ s) (h2 : '!' ∉ s) (h3 : 'A' ∉ s) :
    evaluate_expression s = if s.isEmpty then none else evaluate_simple_expression s := by
  by_cases he : s.isEmpty
  · unfold evaluate_expression
    rw [if_pos he, if_pos he]
  · unfold evaluate_expression
    rw [if_neg he, if_neg he, bracketLoop_no_bracket h1]
    dsimp only
    rw [if_neg (by simpa using h1), factLoop_no_bang (findCharIdx_eq_none h2)]
    dsimp only
    rw [permLoop_no_A (findCharIdx_eq_none h3)]

/-- When the first `!` of a bracket-free string is not immediately
preceded by a digit, the factorial pass parses a number ending in a
non-digit and the whole evaluation fails. -/
theorem evaluate_first_bang_not_digit {s : List Char} {pos : Nat} (hnb : '[' ∉ s)
    (hfind : findCharIdx '!' s = some pos) (hpos0 : 0 < pos)
    (hnd : (s.getD (pos - 1) ' ').isDigit = false) : evaluate_expression s = none := by
  have hmem : '!' ∈ s := mem_of_get (findCharIdx_get hfind)
  have hne : s ≠ [] := by rintro rfl; cases hmem
  have hpos_lt : pos < s.length := findCharIdx_lt hfind
  have hstartle : scanDigitsBack s (pos - 1) ≤ pos - 1 := scanDigitsBack_le _
  have hlen_take : (s.take pos).length = pos := by rw [List.length_take]; omega
  have hstep : factStep s pos = none := by
    unfold factStep
    rw [if_neg (by omega)]
    dsimp only
    cases hp : parse_i32 ((s.take pos).drop (scanDigitsBack s (pos - 1))) with
    | none => rfl
    | some n =>
      exfalso
      obtain ⟨dl, hdl, hdig⟩ := parse_i32_some_last hp
      have htlast : (s.take pos).getLast? = some s[pos - 1] := by
        rw [List.getLast?_eq_getElem?]
        simp only [hlen_take]
        rw [List.getElem?_eq_getElem (by rw [hlen_take]; omega)]
        simp [List.getElem_take]
      have hnonempty : (s.take pos).drop (scanDigitsBack s (pos - 1)) ≠ [] := by
        intro hx
        have hlen : ((s.take pos).drop (scanDigitsBack s (pos - 1))).length =
            pos - scanDigitsBack s (pos - 1) := by
          rw [List.length_drop, hlen_take]
        rw [hx] at hlen
        simp at hlen
        omega
      have hdrop_last :
          ((s.take pos).drop (scanDigitsBack s (pos - 1))).getLast? = some s[pos - 1] := by
        obtain ⟨x, hx⟩ :=
          Option.isSome_iff_exists.mp (List.getLast?_isSome.mpr hnonempty)
        have hcomb : (s.take pos).getLast? = some x := by
          conv_lhs => rw [← List.take_append_drop (scanDigitsBack s (pos - 1)) (s.take pos)]
          rw [List.getLast?_append, hx]
          rfl
        rw [htlast] at hcomb
        rw [hx, hcomb]
      rw [hdrop_last] at hdl
      simp only [Option.some_inj] at hdl
      rw [← hdl] at hdig
      rw [List.getD_eq_getElem?_getD,
        List.getElem?_eq_getElem (by omega : pos - 1 < s.length)] at hnd
      simp only [Option.getD_some] at hnd
      simp [hdig] at hnd
  have hcount : s.count '!' ≠ 0 := by
    intro hc
    rw [List.count_eq_zero] at hc
    exact hc hmem
  obtain ⟨k, hk⟩ : ∃ k, s.count '!' = k + 1 := ⟨s.count '!' - 1, by omega⟩
  have hfl : factLoop (k + 1) s = none := by
    unfold factLoop
    rw [hfind]
    dsimp only
    rw [hstep]
    rfl
  unfold evaluate_expression
  rw [if_neg (by simpa using hne), bracketLoop_no_bracket hnb]
  dsimp only
  rw [if_neg (by simpa using hnb), hk, hfl]

/-! ## Layer 4: the search machinery -/

theorem mem_foldr_append {α β : Type} {g : α → List β} {l : List α} {r : β}
    (h : r ∈ l.foldr (fun c acc => g c ++ acc) []) : ∃ c ∈ l, r ∈ g c := by
  induction l with
  | nil => cases h
  | cons x xs ih =>
    simp only [List.foldr_cons] at h
    rcases List.mem_append.mp h with hx | hrest
    · exact ⟨x, List.mem_cons_self x xs, hx⟩
    · obtain ⟨c, hc, hr⟩ := ih hrest
      exact ⟨c, List.mem_cons_of_mem x hc, hr⟩

/-- The threaded count map always equals the multiset of the built prefix. -/
theorem bumpCount_count {expr : List Char} {c : Char} :
    bumpCount (fun x => expr.count x) c = fun x => (expr ++ [c]).count x := by
  funext d
  by_cases hd : d = c
  · subst hd
    simp [bumpCount, List.count_append]
  · simp [bumpCount, hd, List.count_append, List.count_cons, Ne.symm hd]

/-- At a full-length prefix, membership in the result forces every terminal
gate of `recursive_search` to pass and the result to be the prefix itself. -/
theorem recursive_search_terminal {S : SumzleSolver} {gk : GlobalKnowledge}
    {fuel : Nat} {expr : List Char} {mop : Option Char} {counts : Char → Nat}
    {fc : FloorContext} {r : List Char}
    (hlen : expr.length = S.length)
    (h : r ∈ recursive_search S gk fuel expr mop counts fc) :
    r = expr ∧ mop.isSome = true ∧ check_brackets expr = true ∧
    (∀ p ∈ gk.must_appear_exact_count, counts p.1 = p.2) ∧
    (∀ p ∈ gk.must_appear_min_count,
      (alGet gk.must_appear_exact_count p.1).isNone = true → p.2 ≤ counts p.1) ∧
    is_valid_solution expr = true := by
  unfold recursive_search at h
  rw [if_pos hlen] at h
  by_cases h1 : mop.isNone = true
  · rw [if_pos h1] at h; cases h
  · rw [if_neg h1] at h
    by_cases h2 : ¬check_brackets expr = true
    · rw [if_pos h2] at h; cases h
    · rw [if_neg h2] at h
      by_cases h3 : gk.must_appear_exact_count.any (fun p => decide (counts p.1 ≠ p.2)) = true
      · rw [if_pos h3] at h; cases h
      · rw [if_neg h3] at h
        by_cases h4 : gk.must_appear_min_count.any
            (fun p => decide ((alGet gk.must_appear_exact_count p.1).isNone ∧
              counts p.1 < p.2)) = true
        · rw [if_pos h4] at h; cases h
        · rw [if_neg h4] at h
          by_cases h5 : is_valid_solution expr = true
          · rw [if_pos h5] at h
            have hre : r = expr := List.mem_singleton.mp h
            refine ⟨hre, ?_, of_not_not h2, ?_, ?_, h5⟩
            · cases mop with
              | none => exact absurd rfl h1
              | some _ => rfl
            · intro p hp
              by_contra hne
              exact h3 (List.any_eq_true.mpr ⟨p, hp, by simpa using hne⟩)
            · intro p hp hnone
              by_contra hlt
              push_neg at hlt
              refine h4 (List.any_eq_true.mpr ⟨p, hp, ?_⟩)
              simp only [decide_eq_true_eq]
              exact ⟨hnone, hlt⟩
          · rw [if_neg h5] at h; cases h

/-- Soundness of `recursive_search`, parametrized by any invariant of the
built prefix that is preserved by every `can_place_char`-gated extension:
each returned string satisfies the invariant at full length and passes all
the terminal gates. -/
theorem recursive_search_sound (S : SumzleSolver) (gk : GlobalKnowledge)
    (Inv : List Char → Option Char → FloorContext → Prop)
    (hstep : ∀ expr mop fc c,
      Inv expr mop fc →
      can_place_char S c expr.length expr mop (fun x => expr.count x) fc gk = true →
      Inv (expr ++ [c]) (newMainOp c mop) (nextFloorContext c fc)) :
    ∀ fuel expr mop fc r, Inv expr mop fc →
      r ∈ recursive_search S gk fuel expr mop (fun x => expr.count x) fc →
      ∃ mopF fcF, Inv r mopF fcF ∧ mopF.isSome = true ∧
        r.length = S.length ∧ check_brackets r = true ∧
        (∀ p ∈ gk.must_appear_exact_count, r.count p.1 = p.2) ∧
        (∀ p ∈ gk.must_appear_min_count,
          (alGet gk.must_appear_exact_count p.1).isNone = true → p.2 ≤ r.count p.1) ∧
        is_valid_solution r = true := by
  intro fuel
  induction fuel with
  | zero =>
    intro expr mop fc r hInv h
    by_cases hlen : expr.length = S.length
    · obtain ⟨hre, hsome, hbr, hex, hmin, hval⟩ := recursive_search_terminal hlen h
      subst hre
      exact ⟨mop, fc, hInv, hsome, hlen, hbr, hex, hmin, hval⟩
    · unfold recursive_search at h
      rw [if_neg hlen] at h
      cases h
  | succ fuel ih =>
    intro expr mop fc r hInv h
    by_cases hlen : expr.length = S.length
    · obtain ⟨hre, hsome, hbr, hex, hmin, hval⟩ := recursive_search_terminal hlen h
      subst hre
      exact ⟨mop, fc, hInv, hsome, hlen, hbr, hex, hmin, hval⟩
    · unfold recursive_search at h
      rw [if_neg hlen] at h
      dsimp only at h
      cases hfix : gk.fixed_chars.getD expr.length none with
      | some fixed =>
        rw [hfix] at h
        dsimp only at h
        by_cases hcp : can_place_char S fixed expr.length expr mop
            (fun x => expr.count x) fc gk = true
        · rw [if_pos hcp, bumpCount_count] at h
          exact ih (expr ++ [fixed]) _ _ r (hstep expr mop fc fixed hInv hcp) h
        · rw [if_neg hcp] at h; cases h
      | none =>
        rw [hfix] at h
        dsimp only at h
        obtain ⟨c, hc, hr⟩ := mem_foldr_append h
        by_cases hcp : can_place_char S c expr.length expr mop
            (fun x => expr.count x) fc gk = true
        · rw [if_pos hcp, bumpCount_count] at hr
          exact ih (expr ++ [c]) _ _ r (hstep expr mop fc c hInv hcp) hr
        · rw [if_neg hcp] at hr; cases hr

/-- Soundness of `search`, threading the invariant from the empty prefix. -/
theorem search_sound {S : SumzleSolver} {constraints : Constraints} {gk : GlobalKnowledge}
    (Inv : List Char → Option Char → FloorContext → Prop)
    (hgk : preprocess_constraints S constraints = some gk)
    (hstep : ∀ expr mop fc c, Inv expr mop fc →
      can_place_char S c expr.length expr mop (fun x => expr.count x) fc gk = true →
      Inv (expr ++ [c]) (newMainOp c mop) (nextFloorContext c fc))
    (hinit : Inv [] none ⟨false, false⟩)
    {r : List Char} (h : r ∈ search S constraints) :
    ∃ mopF fcF, Inv r mopF fcF ∧ mopF.isSome = true ∧
      r.length = S.length ∧ check_brackets r = true ∧
      (∀ p ∈ gk.must_appear_exact_count, r.count p.1 = p.2) ∧
      (∀ p ∈ gk.must_appear_min_count,
        (alGet gk.must_appear_exact_count p.1).isNone = true → p.2 ≤ r.count p.1) ∧
      is_valid_solution r = true := by
  unfold search at h
  rw [hgk] at h
  dsimp only at h
  have hz : (fun _ : Char => 0) = (fun x : Char => ([] : List Char).count x) := by
    funext x
    simp
  rw [hz] at h
  exact recursive_search_sound S gk Inv hstep S.length [] none ⟨false, false⟩ r hinit h

/-! ## Layer 5: the main-operator scan and the depth-0 comparison count -/

theorem bracketDelta_cons {c : Char} {l : List Char} :
    bracketDelta (c :: l) =
      (if c = '(' ∨ c = '[' then (1 : Int) else if c = ')' ∨ c = ']' then -1 else 0) +
        bracketDelta l := rfl

theorem depth0CompCount_cons {c : Char} {l : List Char} {d : Int} :
    depth0CompCount (c :: l) d =
      if c = '(' ∨ c = '[' then depth0CompCount l (d + 1)
      else if c = ')' ∨ c = ']' then depth0CompCount l (d - 1)
      else if d = 0 ∧ (c = '=' ∨ c = '>') then 1 + depth0CompCount l d
      else depth0CompCount l d := rfl

/-- Once the scan carries a main operator it can only ever report that
operator, at the index it already recorded. -/
theorem findMainOpLoop_some_spec {x : Char} :
    ∀ (cs : List Char) (i : Nat) (d : Int) (mi : Nat) {res : Option Char} {idx : Nat},
      findMainOpLoop cs i d (some x) mi = some (res, idx) → res = some x ∧ idx = mi := by
  intro cs
  induction cs with
  | nil =>
    intro i d mi res idx h
    unfold findMainOpLoop at h
    simp only [Option.some_inj, Prod.mk.injEq] at h
    exact ⟨h.1.symm, h.2.symm⟩
  | cons c rest ih =>
    intro i d mi res idx h
    unfold findMainOpLoop at h
    by_cases h1 : c = '(' ∨ c = '['
    · rw [if_pos h1] at h
      exact ih _ _ _ h
    · rw [if_neg h1] at h
      by_cases h2 : c = ')' ∨ c = ']'
      · rw [if_pos h2] at h
        exact ih _ _ _ h
      · rw [if_neg h2] at h
        by_cases h3 : d = 0 ∧ (c = '=' ∨ c = '>')
        · rw [if_pos h3] at h
          dsimp only at h
          by_cases h4 : x = '>' ∧ c = '='
          · rw [if_pos h4] at h
            obtain ⟨hx, -⟩ := h4
            subst hx
            exact ih _ _ _ h
          · rw [if_neg h4] at h
            by_cases h5 : x ≠ c
            · rw [if_pos h5] at h
              cases h
            · rw [if_neg h5] at h
              exact ih _ _ _ h
        · rw [if_neg h3] at h
          exact ih _ _ _ h

/-- A successful scan that started with no main operator locates its reported
operator in the string, at bracket depth zero relative to the starting depth. -/
theorem findMainOpLoop_none_spec :
    ∀ (cs : List Char) (i : Nat) (d : Int) (mi : Nat) {op : Char} {idx : Nat},
      findMainOpLoop cs i d none mi = some (some op, idx) →
      ∃ k, k < cs.length ∧ idx = i + k ∧ cs[k]? = some op ∧ (op = '=' ∨ op = '>') ∧
        d + bracketDelta (cs.take k) = 0 := by
  intro cs
  induction cs with
  | nil =>
    intro i d mi op idx h
    unfold findMainOpLoop at h
    simp at h
  | cons c rest ih =>
    intro i d mi op idx h
    unfold findMainOpLoop at h
    by_cases h1 : c = '(' ∨ c = '['
    · rw [if_pos h1] at h
      obtain ⟨k, hk, hidx, hget, hop, hd⟩ := ih _ _ _ h
      refine ⟨k + 1, by simp only [List.length_cons]; omega, by omega, by simpa using hget,
        hop, ?_⟩
      rw [List.take_succ_cons, bracketDelta_cons, if_pos h1]
      omega
    · rw [if_neg h1] at h
      by_cases h2 : c = ')' ∨ c = ']'
      · rw [if_pos h2] at h
        obtain ⟨k, hk, hidx, hget, hop, hd⟩ := ih _ _ _ h
        refine ⟨k + 1, by simp only [List.length_cons]; omega, by omega, by simpa using hget,
          hop, ?_⟩
        rw [List.take_succ_cons, bracketDelta_cons, if_neg h1, if_pos h2]
        omega
      · rw [if_neg h2] at h
        by_cases h3 : d = 0 ∧ (c = '=' ∨ c = '>')
        · rw [if_pos h3] at h
          dsimp only at h
          obtain ⟨hres, hidx⟩ := findMainOpLoop_some_spec rest _ _ _ h
          obtain rfl : op = c := Option.some_inj.mp hres
          refine ⟨0, by simp, by omega, by simp, h3.2, ?_⟩
          simp only [List.take_zero]
          show d + 0 = 0
          omega
        · rw [if_neg h3] at h
          obtain ⟨k, hk, hidx, hget, hop, hd⟩ := ih _ _ _ h
          refine ⟨k + 1, by simp only [List.length_cons]; omega, by omega, by simpa using hget,
            hop, ?_⟩
          rw [List.take_succ_cons, bracketDelta_cons, if_neg h1, if_neg h2]
          omega

theorem depth0CompCount_append :
    ∀ (a b : List Char) (d : Int),
      depth0CompCount (a ++ b) d =
        depth0CompCount a d + depth0CompCount b (d + bracketDelta a) := by
  intro a
  induction a with
  | nil =>
    intro b d
    simp [depth0CompCount, bracketDelta]
  | cons c rest ih =>
    intro b d
    rw [List.cons_append, depth0CompCount_cons, depth0CompCount_cons (l := rest),
      bracketDelta_cons]
    by_cases h1 : c = '(' ∨ c = '['
    · rw [if_pos h1, if_pos h1, if_pos h1, ih,
        (show d + 1 + bracketDelta rest = d + (1 + bracketDelta rest) by ring)]
    · rw [if_neg h1, if_neg h1, if_neg h1]
      by_cases h2 : c = ')' ∨ c = ']'
      · rw [if_pos h2, if_pos h2, if_pos h2, ih,
          (show d - 1 + bracketDelta rest = d + (-1 + bracketDelta rest) by ring)]
      · rw [if_neg h2, if_neg h2, if_neg h2]
        by_cases h3 : d = 0 ∧ (c = '=' ∨ c = '>')
        · rw [if_pos h3, if_pos h3, ih,
            (show d + ((0 : Int) + bracketDelta rest) = d + bracketDelta rest by ring)]
          omega
        · rw [if_neg h3, if_neg h3, ih,
            (show d + ((0 : Int) + bracketDelta rest) = d + bracketDelta rest by ring)]

theorem depth0CompCount_no_comp :
    ∀ (s : List Char), '=' ∉ s → '>' ∉ s → ∀ d, depth0CompCount s d = 0 := by
  intro s
  induction s with
  | nil =>
    intro _ _ d
    rfl
  | cons c rest ih =>
    intro he hg d
    simp only [List.mem_cons, not_or] at he hg
    rw [depth0CompCount_cons]
    have hcomp : ¬(d = 0 ∧ (c = '=' ∨ c = '>')) := by
      rintro ⟨-, rfl | rfl⟩
      · exact he.1 rfl
      · exact hg.1 rfl
    by_cases h1 : c = '(' ∨ c = '['
    · rw [if_pos h1]
      exact ih he.2 hg.2 _
    · rw [if_neg h1]
      by_cases h2 : c = ')' ∨ c = ']'
      · rw [if_pos h2]
        exact ih he.2 hg.2 _
      · rw [if_neg h2, if_neg hcomp]
        exact ih he.2 hg.2 _

/-- Inversion of `is_valid_equation`: a valid string passes the bracket
check, its scan reports a main operator at an interior index, and both
sides of the split evaluate successfully. -/
theorem is_valid_equation_inv {r : List Char} (h : is_valid_equation r = true) :
    check_brackets r = true ∧
    ∃ op idx lv rv, findMainOpLoop r 0 0 none 0 = some (some op, idx) ∧
      idx ≠ 0 ∧ idx ≠ r.length - 1 ∧
      evaluate_expression (r.take idx) = some lv ∧
      evaluate_expression (r.drop (idx + 1)) = some rv := by
  unfold is_valid_equation at h
  by_cases hb : ¬check_brackets r = true
  · rw [if_pos hb] at h
    cases h
  · rw [if_neg hb] at h
    refine ⟨of_not_not hb, ?_⟩
    cases hscan : findMainOpLoop r 0 0 none 0 with
    | none =>
      rw [hscan] at h
      cases h
    | some pr =>
      rw [hscan] at h
      obtain ⟨mo, idx⟩ := pr
      cases mo with
      | none =>
        dsimp only at h
        cases h
      | some op =>
        dsimp only at h
        by_cases hix : idx = 0 ∨ idx = r.length - 1
        · rw [if_pos hix] at h
          cases h
        · rw [if_neg hix] at h
          by_cases hemp : (r.take idx).isEmpty = true ∨ (r.drop (idx + 1)).isEmpty = true
          · rw [if_pos hemp] at h
            cases h
          · rw [if_neg hemp] at h
            cases hl : evaluate_expression (r.take idx) with
            | none =>
              rw [hl] at h
              dsimp only at h
              cases h
            | some lv =>
              rw [hl] at h
              cases hr : evaluate_expression (r.drop (idx + 1)) with
              | none =>
                rw [hr] at h
                dsimp only at h
                cases h
              | some rv =>
                exact ⟨op, idx, lv, rv, rfl, fun h0 => hix (Or.inl h0),
                  fun h1 => hix (Or.inr h1), hl, hr⟩

/-- A valid equation has exactly one comparison operator at bracket depth
zero: the one at the split index. -/
theorem is_valid_one_comp {r : List Char} (h : is_valid_equation r = true) :
    depth0CompCount r 0 = 1 := by
  obtain ⟨hbr, op, idx, lv, rv, hscan, hix0, hixl, hl, hr⟩ := is_valid_equation_inv h
  obtain ⟨k, hk, hidx, hget, hop, hdel⟩ := findMainOpLoop_none_spec r 0 0 0 hscan
  have hkidx : k = idx := by omega
  subst hkidx
  have hrk : r[k] = op := (List.getElem?_eq_some.mp hget).2
  have hdecomp : r = r.take k ++ op :: r.drop (k + 1) := by
    conv_lhs => rw [← List.take_append_drop k r, List.drop_eq_getElem_cons hk]
    rw [hrk]
  have hne : '=' ∉ r.take k := fun hmem => evaluate_some_no_eq hl hmem
  have hng : '>' ∉ r.take k := fun hmem => evaluate_some_no_gt hl hmem
  have hne2 : '=' ∉ r.drop (k + 1) := fun hmem => evaluate_some_no_eq hr hmem
  have hng2 : '>' ∉ r.drop (k + 1) := fun hmem => evaluate_some_no_gt hr hmem
  conv_lhs => rw [hdecomp]
  rw [depth0CompCount_append, depth0CompCount_no_comp _ hne hng, hdel, depth0CompCount_cons]
  rcases hop with rfl | rfl
  · rw [if_neg (by decide), if_neg (by decide), if_pos ⟨rfl, by decide⟩,
      depth0CompCount_no_comp _ hne2 hng2]
  · rw [if_neg (by decide), if_neg (by decide), if_pos ⟨rfl, by decide⟩,
      depth0CompCount_no_comp _ hne2 hng2]

/-- Splitting the conjunction of `can_place_char` into its thirteen blocks. -/
theorem can_place_parts {S : SumzleSolver} {gk : GlobalKnowledge} {c : Char} {index : Nat}
    {expr : List Char} {mop : Option Char} {counts : Char → Nat} {fc : FloorContext}
    (hcp : can_place_char S c index expr mop counts fc gk = true) :
    globalViolation gk c index = false ∧
    countViolation gk counts c = false ∧
    floorViolation fc c index expr = false ∧
    bracketCtxViolation S fc c index = false ∧
    numberViolation S c index expr mop = false ∧
    firstPosViolation c index = false ∧
    adjacencyViolation c index expr fc = false ∧
    rhsViolation S c index expr mop = false ∧
    lastPosViolation S c index = false ∧
    bracketScanViolation S c index expr = false ∧
    mainOpViolation S c index mop = false ∧
    permOpViolation c index expr = false ∧
    bangViolation c index expr = false := by
  unfold can_place_char at hcp
  simp only [Bool.and_eq_true, Bool.not_eq_true'] at hcp
  exact ⟨hcp.1.1.1.1.1.1.1.1.1.1.1.1, hcp.1.1.1.1.1.1.1.1.1.1.1.2, hcp.1.1.1.1.1.1.1.1.1.1.2,
    hcp.1.1.1.1.1.1.1.1.1.2, hcp.1.1.1.1.1.1.1.1.2, hcp.1.1.1.1.1.1.1.2, hcp.1.1.1.1.1.1.2,
    hcp.1.1.1.1.1.2, hcp.1.1.1.1.2, hcp.1.1.1.2, hcp.1.1.2, hcp.1.2, hcp.2⟩

/-- The first block of `can_place_char` preserves the knowledge invariant:
the extended prefix still agrees with every pin and avoids every forbidden
character. -/
theorem gkInv_step {S : SumzleSolver} {gk : GlobalKnowledge} {expr : List Char}
    {mop : Option Char} {counts : Char → Nat} {fc : FloorContext} {c : Char}
    (hInv : gkInv gk expr)
    (hcp : can_place_char S c expr.length expr mop counts fc gk = true) :
    gkInv gk (expr ++ [c]) := by
  have hgv := (can_place_parts hcp).1
  unfold globalViolation at hgv
  simp only [Bool.or_eq_false_iff] at hgv
  obtain ⟨⟨hforb, hfix⟩, -⟩ := hgv
  constructor
  · intro i hi f hf
    rw [List.length_append] at hi
    simp only [List.length_cons, List.length_nil] at hi
    by_cases hilt : i < expr.length
    · rw [getElem?_append_lt hilt]
      exact hInv.1 i hilt f hf
    · have hieq : i = expr.length := by omega
      subst hieq
      rw [hf] at hfix
      dsimp only at hfix
      have hfc : f = c := by
        simpa [decide_eq_false_iff_not, not_not] using hfix
      rw [List.getElem?_append_right (Nat.le_refl _), Nat.sub_self, hfc]
      rfl
  · intro d hd
    rcases List.mem_append.mp hd with hdl | hdr
    · exact hInv.2 d hdl
    · rw [List.mem_singleton.mp hdr]
      exact hforb

theorem lzInv_eq_some {pre : List Char} :
    lzInv pre (some '=') =
      (∃ a b, pre = a ++ '=' :: b ∧ '=' ∉ a ∧ (¬∃ i, lzPatternAt (a ++ ['=']) i) ∧
        ∀ c ∈ b, is_digit c = true ∨ c = '-') := by
  unfold lzInv
  rw [if_pos rfl]

theorem lzInv_eq_other {pre : List Char} {mop : Option Char} (h : mop ≠ some '=') :
    lzInv pre mop = (('=' ∉ pre) ∧ ¬∃ i, lzPatternAt pre i) := by
  unfold lzInv
  rw [if_neg h]

theorem main_op_not_digit {c : Char} (h : is_main_operator c = true) : c.isDigit = false := by
  unfold is_main_operator at h
  simp only [Bool.or_eq_true, beq_iff_eq] at h
  rcases h with rfl | rfl <;> decide

theorem digit_not_main_op {c : Char} (h : is_digit c = true) : is_main_operator c = false := by
  by_contra hx
  rw [Bool.not_eq_false] at hx
  have hd := main_op_not_digit hx
  rw [← is_digit_eq, h] at hd
  cases hd

/-- The number block and the right-hand-side block of `can_place_char`
preserve the leading-zero invariant: before a main `=` the prefix never
acquires a zero-led numeral, afterwards only digits and `-` are appended. -/
theorem lzInv_step {S : SumzleSolver} {gk : GlobalKnowledge} {expr : List Char}
    {mop : Option Char} {counts : Char → Nat} {fc : FloorContext} {c : Char}
    (hInv : lzInv expr mop)
    (hcp : can_place_char S c expr.length expr mop counts fc gk = true) :
    lzInv (expr ++ [c]) (newMainOp c mop) := by
  obtain ⟨-, -, -, -, hnum, -, -, hrhs, -, -, -, -, -⟩ := can_place_parts hcp
  by_cases hm : mop = some '='
  · subst hm
    rw [lzInv_eq_some] at hInv
    obtain ⟨a, b, rfl, hnea, hnopat, hball⟩ := hInv
    unfold rhsViolation at hrhs
    rw [if_pos rfl] at hrhs
    by_cases hdc : ¬is_digit c = true ∧ c ≠ '-'
    · rw [if_pos hdc] at hrhs
      cases hrhs
    · push_neg at hdc
      have hdc' : is_digit c = true ∨ c = '-' := by
        by_cases hd : is_digit c = true
        · exact Or.inl hd
        · exact Or.inr (hdc hd)
      have hnm : is_main_operator c = false := by
        rcases hdc' with hd | rfl
        · exact digit_not_main_op hd
        · decide
      have hnew : newMainOp c (some '=') = some '=' := by
        unfold newMainOp
        rw [hnm]
        rfl
      rw [hnew, lzInv_eq_some]
      refine ⟨a, b ++ [c], by simp, hnea, hnopat, ?_⟩
      intro x hx
      rcases List.mem_append.mp hx with hxb | hxc
      · exact hball x hxb
      · rw [List.mem_singleton.mp hxc]
        exact hdc'
  · rw [lzInv_eq_other hm] at hInv
    obtain ⟨hne, hnopat⟩ := hInv
    by_cases hc : c = '='
    · subst hc
      have hnew : newMainOp '=' mop = some '=' := by
        unfold newMainOp
        rw [if_pos (by decide)]
      rw [hnew, lzInv_eq_some]
      exact ⟨expr, [], rfl, hne, lzPattern_snoc_not_digit (by decide) hnopat,
        fun x hx => absurd hx (List.not_mem_nil x)⟩
    · have hnewm : newMainOp c mop ≠ some '=' := by
        unfold newMainOp
        by_cases hmo2 : is_main_operator c = true
        · rw [if_pos hmo2]
          intro hx
          injection hx with hx
          exact hc hx
        · rw [if_neg hmo2]
          exact hm
      rw [lzInv_eq_other hnewm]
      refine ⟨?_, ?_⟩
      · intro hx
        rcases List.mem_append.mp hx with h1 | h2
        · exact hne h1
        · exact hc (List.mem_singleton.mp h2).symm
      · cases hb : c.isDigit with
        | false => exact lzPattern_snoc_not_digit hb hnopat
        | true =>
          refine lzPattern_snoc_digit hnopat (fun hgate => ?_)
          unfold numberViolation at hnum
          rw [if_pos ⟨hb, hm⟩] at hnum
          dsimp only at hnum
          unfold digitRunBack at hnum
          dsimp only at hnum
          rw [List.take_length] at hnum
          rw [if_pos hgate] at hnum
          cases hnum

theorem can_place_false_of_adjacency {S : SumzleSolver} {gk : GlobalKnowledge} {c : Char}
    {index : Nat} {expr : List Char} {mop : Option Char} {counts : Char → Nat}
    {fc : FloorContext} (h : adjacencyViolation c index expr fc = true) :
    can_place_char S c index expr mop counts fc gk = false := by
  unfold can_place_char
  rw [h]
  simp

theorem can_place_false_of_first {S : SumzleSolver} {gk : GlobalKnowledge} {c : Char}
    {index : Nat} {expr : List Char} {mop : Option Char} {counts : Char → Nat}
    {fc : FloorContext} (h : firstPosViolation c index = true) :
    can_place_char S c index expr mop counts fc gk = false := by
  unfold can_place_char
  rw [h]
  simp

theorem can_place_false_of_mainop {S : SumzleSolver} {gk : GlobalKnowledge} {c : Char}
    {index : Nat} {expr : List Char} {mop : Option Char} {counts : Char → Nat}
    {fc : FloorContext} (h : mainOpViolation S c index mop = true) :
    can_place_char S c index expr mop counts fc gk = false := by
  unfold can_place_char
  rw [h]
  simp

/-- An `=` placed directly after a `>` always fires the adjacency block. -/
theorem main_op_cases {c : Char} (h : is_main_operator c = true) : c = '=' ∨ c = '>' := by
  unfold is_main_operator at h
  simp only [Bool.or_eq_true, beq_iff_eq] at h
  exact h

/-- Any comparison operator placed directly after a `>` fires the adjacency
block (`is_main_operator char` in the main-operator-predecessor arm). -/
theorem adjacency_comp_after_gt {c : Char} {index : Nat} {expr : List Char} {fc : FloorContext}
    (hprev : prevCharAt expr index = some '>') (hc : is_main_operator c = true) :
    adjacencyViolation c index expr fc = true := by
  unfold adjacencyViolation
  rw [hprev]
  dsimp only
  rw [if_neg (by decide), if_neg (by decide), if_neg (by decide), if_neg (by decide),
    if_pos (by decide), if_neg (by decide)]
  simp only [decide_eq_true_eq]
  exact Or.inl hc

/-- With a main operator already recorded, the main-operator block of
`can_place_char` is its conflict test or-ed with its position test. -/
theorem mainOpViolation_eq_second {S : SumzleSolver} {index : Nat} {c x : Char}
    (hc : is_main_operator c = true) :
    mainOpViolation S c index (some x) =
      (decide ((x ≠ c ∧ ¬(x = '>' ∧ c = '=')) ∨ (x = c ∧ c = '=')) ||
        decide (index = 0 ∨ S.length - 1 ≤ index)) := by
  unfold mainOpViolation
  rw [if_pos hc]

/-! ## Layer 6: the constraint compiler reads only the projected tiles -/

theorem processProjTiles_cons {len : Nat} {st : PosState} {c : Nat} {ch : Char} {s0 : String}
    {rest : List (Nat × Char × String)} :
    processProjTiles len st ((c, ch, s0) :: rest) =
      (processTileProj len st c ch s0).bind (fun st' => processProjTiles len st' rest) := rfl

theorem processTile_eq_proj {len : Nat} {st : PosState} {c : Nat} {t : Tile}
    (hne : t.char.isEmpty = false) :
    processTile len st c t = processTileProj len st c (t.char.toList.headD ' ') t.state := by
  unfold processTile processTileProj
  by_cases hlc : len ≤ c
  · rw [if_pos (Or.inl hlc), if_pos hlc]
  · have hcond : ¬(len ≤ c ∨ t.char.isEmpty = true) := by
      rintro (h | h)
      · exact hlc h
      · rw [hne] at h
        cases h
    rw [if_neg hcond, if_neg hlc]

theorem processRowTiles_eq_proj {len : Nat} :
    ∀ (row : Row) (st : PosState) (c : Nat),
      processRowTiles len st c row = processProjTiles len st (rowProjAux c row) := by
  intro row
  induction row with
  | nil =>
    intro st c
    rfl
  | cons t ts ih =>
    intro st c
    unfold processRowTiles rowProjAux
    cases he : t.char.isEmpty with
    | true =>
      rw [if_pos rfl]
      have hskip : processTile len st c t = some st := by
        unfold processTile
        rw [if_pos (Or.inr he)]
      rw [hskip]
      dsimp only [Option.bind]
      exact ih st (c + 1)
    | false =>
      rw [if_neg (by simp), processTile_eq_proj he, processProjTiles_cons]
      cases hpt : processTileProj len st c (t.char.toList.headD ' ') t.state with
      | none => rfl
      | some st2 =>
        dsimp only [Option.bind]
        exact ih st2 (c + 1)

theorem posPhase_eq_proj (len : Nat) (rows : List Row) :
    posPhase len rows = posPhaseProj len (rows.map rowProj) := by
  unfold posPhase posPhaseProj
  rw [List.foldlM_map]
  have hf : (fun (st : PosState) (row : Row) => processRowTiles len st 0 row) =
      (fun st row => processProjTiles len st (rowProj row)) := by
    funext st row
    exact processRowTiles_eq_proj row st 0
  rw [hf]

theorem chars_inner_eq_proj :
    ∀ (row : Row) (acc : List Char) (c : Nat),
      row.foldl (fun acc t =>
        if t.char.isEmpty then acc else insertSet acc (t.char.toList.headD ' ')) acc =
      (rowProjAux c row).foldl (fun acc e => insertSet acc e.2.1) acc := by
  intro row
  induction row with
  | nil =>
    intro acc c
    rfl
  | cons t ts ih =>
    intro acc c
    rw [List.foldl_cons]
    unfold rowProjAux
    cases he : t.char.isEmpty with
    | true =>
      rw [if_pos rfl, if_pos rfl]
      exact ih acc (c + 1)
    | false =>
      rw [if_neg (by simp), if_neg (by simp), List.foldl_cons]
      exact ih (insertSet acc (t.char.toList.headD ' ')) (c + 1)

theorem all_chars_eq_proj {rows : List Row} :
    all_chars_in_guesses rows = charsOfProjs (rows.map rowProj) := by
  unfold all_chars_in_guesses charsOfProjs
  rw [List.foldl_map]
  have hf : (fun (acc : List Char) (row : Row) => row.foldl (fun acc t =>
        if t.char.isEmpty then acc else insertSet acc (t.char.toList.headD ' ')) acc) =
      (fun acc row => (rowProj row).foldl (fun acc e => insertSet acc e.2.1) acc) := by
    funext acc row
    exact chars_inner_eq_proj row acc 0
  rw [hf]

theorem tileIsChar_empty {t : Tile} {ch : Char} (he : t.char.isEmpty = true) :
    tileIsChar t ch = false := by
  unfold tileIsChar
  rw [he]
  rfl

theorem tileIsChar_nonempty {t : Tile} {ch : Char} (he : t.char.isEmpty = false) :
    tileIsChar t ch = (t.char.toList.headD ' ' == ch) := by
  unfold tileIsChar
  rw [he]
  rfl

theorem rowMentions_eq_proj {ch : Char} :
    ∀ (row : Row) (c : Nat), rowMentions row ch = projMentions (rowProjAux c row) ch := by
  intro row
  induction row with
  | nil =>
    intro c
    rfl
  | cons t ts ih =>
    intro c
    unfold rowMentions projMentions
    rw [List.any_cons]
    unfold rowProjAux
    cases he : t.char.isEmpty with
    | true =>
      rw [if_pos rfl, tileIsChar_empty he, Bool.false_or]
      exact ih (c + 1)
    | false =>
      rw [if_neg (show ¬(false = true) by simp), List.any_cons, tileIsChar_nonempty he]
      exact congrArg (fun b => (t.char.toList.headD ' ' == ch) || b) (ih (c + 1))

theorem greenInRow_fold_eq_proj {ch : Char} :
    ∀ (row : Row) (c g : Nat),
      row.foldl (fun g t => if tileIsChar t ch ∧ t.state = "correct" then g + 1 else g) g =
      (rowProjAux c row).foldl
        (fun g e => if e.2.1 = ch ∧ e.2.2 = "correct" then g + 1 else g) g := by
  intro row
  induction row with
  | nil =>
    intro c g
    rfl
  | cons t ts ih =>
    intro c g
    rw [List.foldl_cons]
    unfold rowProjAux
    cases he : t.char.isEmpty with
    | true =>
      rw [if_pos rfl]
      have hcond : ¬(tileIsChar t ch = true ∧ t.state = "correct") := by
        rintro ⟨hx, -⟩
        rw [tileIsChar_empty he] at hx
        cases hx
      rw [if_neg hcond]
      exact ih (c + 1) g
    | false =>
      rw [if_neg (show ¬(false = true) by simp), List.foldl_cons]
      dsimp only
      have hcond : (tileIsChar t ch = true ∧ t.state = "correct") ↔
          (t.char.toList.headD ' ' = ch ∧ t.state = "correct") := by
        rw [tileIsChar_nonempty he]
        simp
      by_cases hc2 : t.char.toList.headD ' ' = ch ∧ t.state = "correct"
      · rw [if_pos (hcond.mpr hc2), if_pos hc2]
        exact ih (c + 1) (g + 1)
      · rw [if_neg (fun hx => hc2 (hcond.mp hx)), if_neg hc2]
        exact ih (c + 1) g

theorem yellowInRow_fold_eq_proj {ch : Char} :
    ∀ (row : Row) (c g : Nat),
      row.foldl (fun y t => if tileIsChar t ch ∧ t.state = "present" then y + 1 else y) g =
      (rowProjAux c row).foldl
        (fun y e => if e.2.1 = ch ∧ e.2.2 = "present" then y + 1 else y) g := by
  intro row
  induction row with
  | nil =>
    intro c g
    rfl
  | cons t ts ih =>
    intro c g
    rw [List.foldl_cons]
    unfold rowProjAux
    cases he : t.char.isEmpty with
    | true =>
      rw [if_pos rfl]
      have hcond : ¬(tileIsChar t ch = true ∧ t.state = "present") := by
        rintro ⟨hx, -⟩
        rw [tileIsChar_empty he] at hx
        cases hx
      rw [if_neg hcond]
      exact ih (c + 1) g
    | false =>
      rw [if_neg (show ¬(false = true) by simp), List.foldl_cons]
      dsimp only
      have hcond : (tileIsChar t ch = true ∧ t.state = "present") ↔
          (t.char.toList.headD ' ' = ch ∧ t.state = "present") := by
        rw [tileIsChar_nonempty he]
        simp
      by_cases hc2 : t.char.toList.headD ' ' = ch ∧ t.state = "present"
      · rw [if_pos (hcond.mpr hc2), if_pos hc2]
        exact ih (c + 1) (g + 1)
      · rw [if_neg (fun hx => hc2 (hcond.mp hx)), if_neg hc2]
        exact ih (c + 1) g

theorem rowHasEmptyState_eq_proj {ch : Char} :
    ∀ (row : Row) (c : Nat),
      rowHasEmptyState row ch = projHasEmptyState (rowProjAux c row) ch := by
  intro row
  induction row with
  | nil =>
    intro c
    rfl
  | cons t ts ih =>
    intro c
    unfold rowHasEmptyState projHasEmptyState
    rw [List.any_cons]
    unfold rowProjAux
    cases he : t.char.isEmpty with
    | true =>
      rw [if_pos rfl, tileIsChar_empty he, Bool.false_and, Bool.false_or]
      exact ih (c + 1)
    | false =>
      rw [if_neg (show ¬(false = true) by simp), List.any_cons, tileIsChar_nonempty he]
      exact congrArg
        (fun b => ((t.char.toList.headD ' ' == ch) && (t.state == "empty")) || b) (ih (c + 1))

theorem charRowStep_eq_proj {ch : Char} {acc : Nat × Option Nat} {row : Row} :
    charRowStep ch acc row = charRowStepProj ch acc (rowProj row) := by
  unfold charRowStep charRowStepProj greenInRow yellowInRow
  rw [rowMentions_eq_proj row 0, rowHasEmptyState_eq_proj row 0]
  unfold greenInProj yellowInProj rowProj
  rw [greenInRow_fold_eq_proj row 0 0, yellowInRow_fold_eq_proj row 0 0]

theorem processCountChar_eq_proj {rows : List Row} {cm : CountMaps} {ch : Char} :
    processCountChar rows cm ch = processCountCharProj (rows.map rowProj) cm ch := by
  unfold processCountChar processCountCharProj
  rw [List.foldlM_map]
  have hf : charRowStep ch =
      (fun (acc : Nat × Option Nat) (row : Row) => charRowStepProj ch acc (rowProj row)) := by
    funext acc row
    exact charRowStep_eq_proj
  rw [hf]

theorem countPhase_eq_proj (rows : List Row) :
    countPhase rows = countPhaseProj (rows.map rowProj) := by
  unfold countPhase countPhaseProj
  rw [all_chars_eq_proj]
  have hf : processCountChar rows = processCountCharProj (rows.map rowProj) := by
    funext cm ch
    exact processCountChar_eq_proj
  rw [hf]

/-- The compiled knowledge depends on the feedback only through the row
projections: position, first symbol character and state of the tiles that
carry a symbol. -/
theorem preprocess_proj_invariant {S : SumzleSolver} {rows rows' : List Row}
    (hp : rows.map rowProj = rows'.map rowProj) :
    preprocess_constraints S ⟨rows⟩ = preprocess_constraints S ⟨rows'⟩ := by
  unfold preprocess_constraints
  dsimp only
  rw [posPhase_eq_proj S.length rows, posPhase_eq_proj S.length rows',
    countPhase_eq_proj rows, countPhase_eq_proj rows', hp]

theorem processRowTiles_ge {len : Nat} :
    ∀ (row : Row) (st : PosState) (c : Nat), len ≤ c →
      processRowTiles len st c row = some st := by
  intro row
  induction row with
  | nil =>
    intro st c _
    rfl
  | cons t ts ih =>
    intro st c hlc
    unfold processRowTiles
    have hskip : processTile len st c t = some st := by
      unfold processTile
      rw [if_pos (Or.inl hlc)]
    rw [hskip]
    dsimp only [Option.bind]
    exact ih st (c + 1) (by omega)

theorem processRowTiles_take (len : Nat) :
    ∀ (row : Row) (st : PosState) (c : Nat),
      processRowTiles len st c (row.take (len - c)) = processRowTiles len st c row := by
  intro row
  induction row with
  | nil =>
    intro st c
    rw [List.take_nil]
  | cons t ts ih =>
    intro st c
    by_cases hlc : len ≤ c
    · rw [(by omega : len - c = 0), List.take_zero, processRowTiles_ge (t :: ts) st c hlc]
      rfl
    · obtain ⟨m, hm⟩ : ∃ m, len - c = m + 1 := ⟨len - c - 1, by omega⟩
      rw [hm, List.take_succ_cons]
      unfold processRowTiles
      cases hpt : processTile len st c t with
      | none => rfl
      | some st2 =>
        dsimp only [Option.bind]
        rw [(by omega : m = len - (c + 1))]
        exact ih st2 (c + 1)

/-- Truncating every row to `length` leaves the positional phase unchanged:
it never reads a tile at an index `≥ length`. -/
theorem posPhase_take {len : Nat} {rows : List Row} :
    posPhase len (rows.map (fun row => row.take len)) = posPhase len rows := by
  unfold posPhase
  rw [List.foldlM_map]
  have hf : (fun (st : PosState) (row : Row) => processRowTiles len st 0 (row.take len)) =
      (fun st row => processRowTiles len st 0 row) := by
    funext st row
    have h := processRowTiles_take len row st 0
    rwa [Nat.sub_zero] at h
  rw [hf]

/-! # Theorems -/

/-- **C5.** Every string in the sequence returned by `search` has length
exactly `length`, contains exactly one bracket-depth-0 comparison operator,
has balanced brackets, and satisfies `is_valid_equation`. -/
theorem c5_results_shape (S : SumzleSolver) (constraints : Constraints)
    (r : List Char) (h : r ∈ search S constraints) :
    r.length = S.length ∧ depth0CompCount r 0 = 1 ∧
    check_brackets r = true ∧ is_valid_equation r = true := by
  cases hgk : preprocess_constraints S constraints with
  | none =>
    unfold search at h
    rw [hgk] at h
    cases h
  | some gk =>
    obtain ⟨mopF, fcF, -, -, hlen, hbr, -, -, hval⟩ :=
      search_sound (fun _ _ _ => True) hgk (fun _ _ _ _ _ _ => trivial) trivial h
    exact ⟨hlen, is_valid_one_comp hval, hbr, hval⟩

/-- Witness for C5: the fully pinned length-3 search returns exactly
`["1=1"]`, and its result has the required shape. -/
theorem c5_results_shape_witness :
    "1=1".toList ∈ search solver3 pinnedFeedback ∧
    ("1=1".toList.length = solver3.length ∧ depth0CompCount "1=1".toList 0 = 1 ∧
      check_brackets "1=1".toList = true ∧ is_valid_equation "1=1".toList = true) :=
  ⟨by decide, c5_results_shape solver3 pinnedFeedback "1=1".toList (by decide)⟩

/-- **C6.** Every string returned by `search` respects the compiled
`GlobalKnowledge`: each exact-count symbol occurs exactly that often, each
symbol with only a minimum requirement occurs at least that often, each
globally-forbidden symbol does not occur, and every pinned position holds
its pinned symbol. -/
theorem c6_results_respect_knowledge (S : SumzleSolver) (constraints : Constraints)
    (gk : GlobalKnowledge) (hgk : preprocess_constraints S constraints = some gk)
    (r : List Char) (h : r ∈ search S constraints) :
    (∀ p ∈ gk.must_appear_exact_count, r.count p.1 = p.2) ∧
    (∀ p ∈ gk.must_appear_min_count,
      (alGet gk.must_appear_exact_count p.1).isNone = true → p.2 ≤ r.count p.1) ∧
    (∀ c, gk.globally_forbidden.contains c = true → r.count c = 0) ∧
    (∀ i f, i < r.length → gk.fixed_chars.getD i none = some f → r[i]? = some f) := by
  obtain ⟨mopF, fcF, hInv, -, -, -, hex, hmin, -⟩ :=
    search_sound (fun pre _ _ => gkInv gk pre) hgk
      (fun expr mop fc c hI hcp => gkInv_step hI hcp)
      ⟨fun i hi => absurd hi (by simp), fun c hc => absurd hc (List.not_mem_nil c)⟩ h
  refine ⟨hex, hmin, ?_, ?_⟩
  · intro c hc
    rw [List.count_eq_zero]
    intro hmem
    have hcf := hInv.2 c hmem
    rw [hcf] at hc
    cases hc
  · intro i f hi hf
    exact hInv.1 i hi f hf

/-- Witness for C6: the second feedback row derives the exact requirement
`'1' ↦ 2`, and the single returned result `"1=1"` indeed holds two `'1'`s. -/
theorem c6_results_respect_knowledge_witness :
    preprocess_constraints solver3 exactCountFeedback = some gkExact3 ∧
    "1=1".toList.count '1' = 2 :=
  ⟨by decide, (c6_results_respect_knowledge solver3 exactCountFeedback gkExact3 (by decide)
      "1=1".toList (by decide)).1 ('1', 2) (by decide)⟩

/-- **C7.** No string returned by `search` is flagged by the leading-zero
scan (equivalently, holds a numeral token of length > 1 beginning with
`'0'`), and the simple evaluator returns `none` for every string holding
such a token. -/
theorem c7_no_leading_zero :
    (∀ (S : SumzleSolver) (constraints : Constraints) (r : List Char),
      r ∈ search S constraints → leadingZeroHit r = false) ∧
    (∀ (s : List Char) (i : Nat), lzPatternAt s i → evaluate_simple_expression s = none) := by
  constructor
  · intro S constraints r h
    cases hgk : preprocess_constraints S constraints with
    | none =>
      unfold search at h
      rw [hgk] at h
      cases h
    | some gk =>
      obtain ⟨mopF, fcF, hInv, -, -, -, -, -, hval⟩ :=
        search_sound (fun pre mop _ => lzInv pre mop) hgk
          (fun expr mop fc c hI hcp => lzInv_step hI hcp)
          (by
            show lzInv [] none
            rw [lzInv_eq_other (by simp)]
            refine ⟨List.not_mem_nil '=', ?_⟩
            rintro ⟨i, h0, -, -⟩
            simp at h0) h
      by_cases hmf : mopF = some '='
      · subst hmf
        rw [lzInv_eq_some] at hInv
        obtain ⟨a, b, rfl, hnea, hnopat, hball⟩ := hInv
        obtain ⟨-, op, idx, lv, rv, hscan, -, -, hl, hr⟩ := is_valid_equation_inv hval
        obtain ⟨k, hk, hidx, hget, hop, hdel⟩ := findMainOpLoop_none_spec _ 0 0 0 hscan
        have hkidx : k = idx := by omega
        subst hkidx
        -- the scan's split index is exactly the position of the main `=`
        have hka : ¬k < a.length := by
          intro hlt
          have hak : a[k]? = some op := by
            rw [← hget, getElem?_append_lt hlt]
          have hopa : op ∈ a := mem_of_get hak
          rcases hop with rfl | rfl
          · exact hnea hopa
          · have hmem : '=' ∈ (a ++ '=' :: b).drop (k + 1) := by
              rw [List.drop_append_of_le_length (by omega)]
              exact List.mem_append.mpr (Or.inr (List.mem_cons_self _ _))
            exact evaluate_some_no_eq hr hmem
        have hkb : ¬a.length < k := by
          intro hlt
          rw [List.getElem?_append_right (by omega : a.length ≤ k)] at hget
          obtain ⟨j, hj⟩ : ∃ j, k - a.length = j + 1 := ⟨k - a.length - 1, by omega⟩
          rw [hj, List.getElem?_cons_succ] at hget
          have hopb : op ∈ b := mem_of_get hget
          rcases hball op hopb with hd | hd <;>
            rcases hop with rfl | rfl <;> exact absurd hd (by decide)
        have hkeq : k = a.length := by omega
        subst hkeq
        have hdropb : (a ++ '=' :: b).drop (a.length + 1) = b := by
          have hassoc : a ++ '=' :: b = (a ++ ['=']) ++ b := by simp
          have hlen2 : (a ++ ['=']).length = a.length + 1 := by simp
          rw [hassoc, ← hlen2, List.drop_left]
        rw [hdropb] at hr
        have hb1 : '[' ∉ b := fun hmem => by
          rcases hball '[' hmem with hd | hd <;> exact absurd hd (by decide)
        have hb2 : '!' ∉ b := fun hmem => by
          rcases hball '!' hmem with hd | hd <;> exact absurd hd (by decide)
        have hb3 : 'A' ∉ b := fun hmem => by
          rcases hball 'A' hmem with hd | hd <;> exact absurd hd (by decide)
        rw [evaluate_no_special hb1 hb2 hb3] at hr
        by_cases hbe : b.isEmpty = true
        · rw [if_pos hbe] at hr
          cases hr
        · rw [if_neg hbe] at hr
          have hnb : ¬∃ i, lzPatternAt b i := fun ⟨i, hp⟩ => by
            rw [lzPattern_simple_none hp] at hr
            cases hr
          have hfull : ¬∃ i, lzPatternAt (a ++ '=' :: b) i :=
            lzPattern_glue (by decide) hnopat hnb
          by_contra hx
          rw [Bool.not_eq_false] at hx
          exact hfull (pattern_of_leadingZeroHit hx)
      · rw [lzInv_eq_other hmf] at hInv
        by_contra hx
        rw [Bool.not_eq_false] at hx
        exact hInv.2 (pattern_of_leadingZeroHit hx)
  · intro s i hp
    exact lzPattern_simple_none hp

/-- Witness for C7: the single returned result of the pinned length-3 search
passes the scan, and a concrete zero-led numeral is rejected by the simple
evaluator. -/
theorem c7_no_leading_zero_witness :
    leadingZeroHit "1=1".toList = false ∧
    evaluate_simple_expression "01".toList = none :=
  ⟨c7_no_leading_zero.1 solver3 pinnedFeedback "1=1".toList (by decide),
   c7_no_leading_zero.2 "01".toList 0 ⟨rfl, ⟨'1', rfl, by decide⟩, Or.inl rfl⟩⟩

/-- **C2 counterexample.** The claim's characterization fails in both
directions: `can_place_char` *rejects* `=` at the position immediately
following an already-placed `>` (prefix `"1>"`, index 2, main operator
`>`), and it *accepts* a second comparison operator that is not a
directly-following `=` — a `>` after the prefix `"1>2"`: -/
theorem c2_counterexample_adjacent_eq :
    can_place_char solver5 '=' 2 ['1', '>'] (some '>') (fun x => ['1', '>'].count x)
      ⟨false, false⟩ gkEmpty5 = false ∧
    can_place_char solver5 '>' 3 ['1', '>', '2'] (some '>')
      (fun x => ['1', '>', '2'].count x) ⟨false, false⟩ gkEmpty5 = true := by
  constructor <;> decide

/-- **C2 (amended).** The second-comparison rules of `can_place_char`:
once the main operator is `=`, no further comparison operator is ever
legal; any comparison operator immediately following a placed `>` is
rejected (so the claim's directly-following `=` is in fact the one
placement that never succeeds); any comparison operator at position 0, or
at or beyond the last position, is rejected; with main operator `>` the
main-operator block reduces to its position test alone — it admits both a
second `=` (the combined greater-or-equal) and a repeated `>`; and both
are indeed placeable non-adjacently after the `>` (concrete length-5
instances). -/
theorem c2_second_comparison_rules :
    (∀ (S : SumzleSolver) (gk : GlobalKnowledge) (expr : List Char) (c : Char) (index : Nat)
      (counts : Char → Nat) (fc : FloorContext),
      is_main_operator c = true →
      can_place_char S c index expr (some '=') counts fc gk = false) ∧
    (∀ (S : SumzleSolver) (gk : GlobalKnowledge) (expr : List Char) (c : Char) (index : Nat)
      (mop : Option Char) (counts : Char → Nat) (fc : FloorContext),
      prevCharAt expr index = some '>' → is_main_operator c = true →
      can_place_char S c index expr mop counts fc gk = false) ∧
    (∀ (S : SumzleSolver) (gk : GlobalKnowledge) (expr : List Char) (c : Char)
      (mop : Option Char) (counts : Char → Nat) (fc : FloorContext),
      is_main_operator c = true →
      can_place_char S c 0 expr mop counts fc gk = false) ∧
    (∀ (S : SumzleSolver) (gk : GlobalKnowledge) (expr : List Char) (c : Char) (index : Nat)
      (mop : Option Char) (counts : Char → Nat) (fc : FloorContext),
      is_main_operator c = true → S.length - 1 ≤ index →
      can_place_char S c index expr mop counts fc gk = false) ∧
    (∀ (S : SumzleSolver) (c : Char) (index : Nat),
      is_main_operator c = true →
      mainOpViolation S c index (some '>') = decide (index = 0 ∨ S.length - 1 ≤ index)) ∧
    (can_place_char solver5 '=' 3 ['1', '>', '2'] (some '>')
      (fun x => ['1', '>', '2'].count x) ⟨false, false⟩ gkEmpty5 = true ∧
     can_place_char solver5 '>' 3 ['1', '>', '2'] (some '>')
      (fun x => ['1', '>', '2'].count x) ⟨false, false⟩ gkEmpty5 = true) := by
  refine ⟨?_, ?_, ?_, ?_, ?_, by decide, by decide⟩
  · intro S gk expr c index counts fc hc
    refine can_place_false_of_mainop ?_
    rw [mainOpViolation_eq_second hc]
    rcases main_op_cases hc with rfl | rfl
    · exact Bool.true_or _
    · exact Bool.true_or _
  · intro S gk expr c index mop counts fc hprev hc
    exact can_place_false_of_adjacency (adjacency_comp_after_gt hprev hc)
  · intro S gk expr c mop counts fc hc
    refine can_place_false_of_first ?_
    unfold firstPosViolation
    simp only [decide_eq_true_eq]
    exact ⟨trivial, Or.inr (Or.inr (Or.inl hc))⟩
  · intro S gk expr c index mop counts fc hc hle
    refine can_place_false_of_mainop ?_
    unfold mainOpViolation
    rw [if_pos hc]
    have hd : decide (index = 0 ∨ S.length - 1 ≤ index) = true := by
      simp only [decide_eq_true_eq]
      exact Or.inr hle
    rw [hd, Bool.or_true]
  · intro S c index hc
    rw [mainOpViolation_eq_second hc]
    rcases main_op_cases hc with rfl | rfl
    · exact Bool.false_or _
    · exact Bool.false_or _

/-- Witness for C2 at concrete placements: a `>` with main operator `=` is
rejected, an `=` right after `>` is rejected, `>` at position 0 is
rejected, `=` at the last position is rejected, and the main-operator
block at interior index 3 after a main `>` reports no violation for a
second `>`. -/
theorem c2_second_comparison_rules_witness :
    can_place_char solver5 '>' 2 ['1', '='] (some '=') (fun x => ['1', '='].count x)
      ⟨false, false⟩ gkEmpty5 = false ∧
    can_place_char solver5 '=' 2 ['2', '>'] (some '>') (fun x => ['2', '>'].count x)
      ⟨false, false⟩ gkEmpty5 = false ∧
    can_place_char solver5 '>' 0 [] none (fun _ => 0) ⟨false, false⟩ gkEmpty5 = false ∧
    can_place_char solver5 '=' 4 ['1', '>', '2', '3'] (some '>')
      (fun x => ['1', '>', '2', '3'].count x) ⟨false, false⟩ gkEmpty5 = false ∧
    mainOpViolation solver5 '>' 3 (some '>') =
      decide ((3 : Nat) = 0 ∨ solver5.length - 1 ≤ 3) :=
  ⟨c2_second_comparison_rules.1 solver5 gkEmpty5 ['1', '='] '>' 2
      (fun x => ['1', '='].count x) ⟨false, false⟩ (by decide),
   c2_second_comparison_rules.2.1 solver5 gkEmpty5 ['2', '>'] '=' 2 (some '>')
      (fun x => ['2', '>'].count x) ⟨false, false⟩ (by decide) (by decide),
   c2_second_comparison_rules.2.2.1 solver5 gkEmpty5 [] '>' none
      (fun _ => 0) ⟨false, false⟩ (by decide),
   c2_second_comparison_rules.2.2.2.1 solver5 gkEmpty5 ['1', '>', '2', '3'] '=' 4 (some '>')
      (fun x => ['1', '>', '2', '3'].count x) ⟨false, false⟩ (by decide) (by decide),
   c2_second_comparison_rules.2.2.2.2.1 solver5 '>' 3 (by decide)⟩

/-- **C10 counterexample.** The claim quantifies over *every* input whose
first `!` follows a non-digit; but the bracket pass runs before the
factorial pass, so in `"[7/2]!"` the first `!` (preceded by the non-digit
`]`) ends up applied to the reduced literal `3`, and evaluation succeeds: -/
theorem c10_counterexample_bracket_then_bang :
    evaluate_expression "[7/2]!".toList = some 6 := by
  decide

/-- **C10 (amended).** For every *bracket-free* string whose first `!` is
immediately preceded by a non-digit, `evaluate_expression` returns `none`;
consequently no string returned by `search` contains `)` immediately
followed by `!` — even though `can_place_char` itself does permit `!`
directly after `)` (concrete length-5 instance). -/
theorem c10_first_bang_rules :
    (∀ (s : List Char) (pos : Nat), '[' ∉ s → findCharIdx '!' s = some pos → 0 < pos →
      (s.getD (pos - 1) ' ').isDigit = false → evaluate_expression s = none) ∧
    (∀ (S : SumzleSolver) (constraints : Constraints) (r : List Char),
      r ∈ search S constraints → ¬[')', '!'] <:+: r) ∧
    can_place_char solver5 '!' 3 ['(', '3', ')'] none (fun x => ['(', '3', ')'].count x)
      ⟨false, false⟩ gkEmpty5 = true := by
  refine ⟨?_, ?_, by decide⟩
  · intro s pos hnb hfind hpos hnd
    exact evaluate_first_bang_not_digit hnb hfind hpos hnd
  · intro S constraints r h
    cases hgk : preprocess_constraints S constraints with
    | none =>
      unfold search at h
      rw [hgk] at h
      cases h
    | some gk =>
      obtain ⟨-, -, -, -, -, -, -, -, hval⟩ :=
        search_sound (fun _ _ _ => True) hgk (fun _ _ _ _ _ _ => trivial) trivial h
      intro hpair
      obtain ⟨-, op, idx, lv, rv, hscan, -, -, hl, hr⟩ := is_valid_equation_inv hval
      obtain ⟨k, hk, hidx, hget, hop, -⟩ := findMainOpLoop_none_spec _ 0 0 0 hscan
      have hkidx : k = idx := by omega
      subst hkidx
      obtain ⟨j, hja, hjb⟩ := pair_infix_getElem.mp hpair
      by_cases hj1 : j + 1 < k
      · have hpl : [')', '!'] <:+: r.take k := by
          refine pair_infix_getElem.mpr ⟨j, ?_, ?_⟩
          · rw [List.getElem?_take, if_pos (by omega : j < k)]
            exact hja
          · rw [List.getElem?_take, if_pos hj1]
            exact hjb
        rw [evaluate_pair_none hpl] at hl
        cases hl
      · by_cases hj2 : k + 1 ≤ j
        · have hpr : [')', '!'] <:+: r.drop (k + 1) := by
            refine pair_infix_getElem.mpr ⟨j - (k + 1), ?_, ?_⟩
            · rw [List.getElem?_drop, (by omega : k + 1 + (j - (k + 1)) = j)]
              exact hja
            · rw [List.getElem?_drop, (by omega : k + 1 + (j - (k + 1) + 1) = j + 1)]
              exact hjb
          rw [evaluate_pair_none hpr] at hr
          cases hr
        · rcases (by omega : j = k ∨ j + 1 = k) with rfl | hj3
          · have hco : some op = some ')' := hget.symm.trans hja
            injection hco with hco
            rcases hop with rfl | rfl <;> exact absurd hco (by decide)
          · rw [← hj3] at hget
            have hco : some op = some '!' := hget.symm.trans hjb
            injection hco with hco
            rcases hop with rfl | rfl <;> exact absurd hco (by decide)

/-- Witness for C10 at the claim's own example `"(3)!"` (bracket-free, first
`!` after the non-digit `)`) and at the pinned length-3 search result. -/
theorem c10_first_bang_rules_witness :
    evaluate_expression "(3)!".toList = none ∧ ¬[')', '!'] <:+: "1=1".toList :=
  ⟨c10_first_bang_rules.1 "(3)!".toList 3 (by decide) (by decide) (by decide) (by decide),
   c10_first_bang_rules.2.1 solver3 pinnedFeedback "1=1".toList (by decide)⟩

/-- **C3 (amended).** The constraint compiler reads each tile only through
its row projection — position, first symbol character and state of the
tiles that carry a symbol — so empty-symbol tiles are ignored (at fixed
positions of the remaining tiles), and the *positional* phase ignores all
tiles at indices ≥ `length` (truncating every row there changes nothing).
Unlike the claim, the count phase does *not* ignore beyond-`length` tiles
(see the counterexample). -/
theorem c3_projection_and_truncation :
    (∀ (S : SumzleSolver) (rows rows' : List Row),
      rows.map rowProj = rows'.map rowProj →
      preprocess_constraints S ⟨rows⟩ = preprocess_constraints S ⟨rows'⟩) ∧
    (∀ (len : Nat) (rows : List Row),
      posPhase len (rows.map (fun row => row.take len)) = posPhase len rows) :=
  ⟨fun _ _ _ hp => preprocess_proj_invariant hp,
   fun _ _ => posPhase_take⟩

/-- Witness for C3: replacing an empty-symbol tile by another empty-symbol
tile with a different state label leaves the compiled knowledge unchanged,
and truncating a row at `length = 1` leaves the positional phase unchanged. -/
theorem c3_projection_and_truncation_witness :
    preprocess_constraints solver3 ⟨[[⟨"", "empty"⟩, ⟨"5", "correct"⟩]]⟩ =
      preprocess_constraints solver3 ⟨[[⟨"", "present"⟩, ⟨"5", "correct"⟩]]⟩ ∧
    posPhase 1 ([[⟨"5", "correct"⟩, ⟨"7", "present"⟩]].map (fun row => row.take 1)) =
      posPhase 1 [[⟨"5", "correct"⟩, ⟨"7", "present"⟩]] :=
  ⟨c3_projection_and_truncation.1 solver3 [[⟨"", "empty"⟩, ⟨"5", "correct"⟩]]
      [[⟨"", "present"⟩, ⟨"5", "correct"⟩]] (by decide),
   c3_projection_and_truncation.2 1 [[⟨"5", "correct"⟩, ⟨"7", "present"⟩]]⟩

/-- **C1.** The depth-0 scan of `is_valid_equation` does fold a `>` followed
later by `=` into the single main operator `>` without reporting a conflict;
but the string is then *not* accepted when both sides are otherwise valid:
the split happens at the index of the `>`, so the right side keeps the `=`
(here `"=4"`) and never evaluates, and `"5>=4"` is rejected even though
5 ≥ 4.  This contradicts the claim (and the code's own `// Combined >=`
intent); the evaluation of the code at the failing input `"5>=4"`: -/
theorem c1_ge_fold_rejected :
    findMainOpLoop "5>=4".toList 0 0 none 0 = some (some '>', 1) ∧
    is_valid_equation "5>=4".toList = false := by
  constructor <;> decide

/-- **C4.** Whenever the constraint compiler reports a conflict, `search`
returns the empty sequence of results rather than an error. -/
theorem c4_conflict_gives_empty_results (S : SumzleSolver) (constraints : Constraints)
    (h : preprocess_constraints S constraints = none) : search S constraints = [] := by
  unfold search
  rw [h]

/-- Witness for C4 at the claim's concrete scenario: one row marks position 0
"correct" with '5' and another marks it "correct" with '6'; the compiler
fails and `search` returns `[]`. -/
theorem c4_conflict_gives_empty_results_witness :
    preprocess_constraints solver2 conflictFeedback = none ∧
    search solver2 conflictFeedback = [] :=
  ⟨by decide, c4_conflict_gives_empty_results solver2 conflictFeedback (by decide)⟩

/-- **C8.** Floor-bracket reduction: `evaluate_expression "[5]" = some 5`
(a bracket holding a single non-negative integer reduces to that integer),
`evaluate_expression "[7/2]" = some 3` (two integers separated by `/` reduce
to the floor of their quotient), and `evaluate_expression "[7/0]" = none`
(a zero denominator fails the whole evaluation). -/
theorem c8_floor_bracket_round_trip :
    evaluate_expression "[5]".toList = some 5 ∧
    evaluate_expression "[7/2]".toList = some 3 ∧
    evaluate_expression "[7/0]".toList = none := by
  refine ⟨by decide, by decide, by decide⟩

/-- **C9.** Factorial reduction: for every operand value in `[0, 12]` the
digit run before `!` is replaced by its factorial (so `"4!"` evaluates to
`24`), and a value outside the range fails the whole evaluation
(`"13!"` evaluates to `none`). -/
theorem c9_factorial_bound :
    (∀ n : Nat, n ≤ 12 →
      evaluate_expression (Nat.toDigits 10 n ++ ['!']) = some (Nat.factorial n : Int)) ∧
    evaluate_expression "13!".toList = none := by
  constructor
  · decide
  · decide

/-- Witness for C9 at `n = 4`: `evaluate_expression "4!" = some 24`. -/
theorem c9_factorial_bound_witness :
    4 ≤ 12 ∧ evaluate_expression (Nat.toDigits 10 4 ++ ['!']) = some (Nat.factorial 4 : Int) :=
  ⟨by decide, c9_factorial_bound.1 4 (by decide)⟩

/-- **C3 counterexample.** A tile beyond `length` with a symbol is *not*
ignored by the count derivation: with `length = 1`, the out-of-range tile
`('5', "empty")` makes '5' globally forbidden, so the compiled knowledge
differs from that of the same feedback with the beyond-length and
empty-symbol tiles removed. -/
theorem c3_counterexample_beyond_length_tile :
    preprocess_constraints solver1 ⟨[[⟨"", "empty"⟩, ⟨"5", "empty"⟩]]⟩ ≠
    preprocess_constraints solver1 ⟨[[]]⟩ := by
  decide

end Sumzle
